import Mathlib

/-!
A shallow embedding of the `creek` monotone dataflow analysis engine.

The engine (src/analyze.rs, src/problem.rs, src/lib.rs) is a generic
worklist fixpoint solver parameterised by a fact type `F`, a node type
`N`, a graph, a transfer function, a join function, and a direction
(Forward or Backward).  We embed:

  * `NodeInfo`   — the per-node `(before, after)` pair (lib.rs);
  * `Graph`      — the graph interface (lib.rs): `get`, `get_entry`,
                   `get_exit`, `get_preds`, `get_succs`; the extra
                   `nodes` field records the finite carrier used by the
                   tests' `get_all_node_ids` and is never consulted by
                   the solver itself;
  * `Direction`  — the sealed `Problem` trait with its two impls
                   `Forward` and `Backward` (problem.rs), as a two-case
                   inductive with the five projections;
  * `Analyzer`   — the solver state record (analyze.rs):
                   `first_fact`, `init_fact`, `trans`, `join`;
  * the solver loop — `Analyzer::solve` / `Analyzer::solve_joins`, as a
    step function `stepSolve` on an explicit `SolveState` plus a fuel
    recursion `runSolve`.  The Rust loop runs until the worklist is
    empty; termination is not guaranteed for arbitrary clients, so the
    embedding exposes the loop one iteration at a time and the theorems
    quantify over the fuel at which the worklist becomes empty.

The `FnvHashMap` info table is embedded as an association list with
in-place update (`setInfo`) and `entry(..).or_insert(..)` semantics
(`orInsert`); `SolveState.visited` and `SolveState.enqueued` are ghost
fields recording, respectively, the ids dequeued so far and every id
ever pushed onto the worklist (including the initial seed); they are
write-only instrumentation and never influence the computation.
-/

/-- The information which holds at the `before` and `after` points of a
particular node (lib.rs `NodeInfo`). -/
structure NodeInfo (F : Type) where
  before : F
  after : F
deriving DecidableEq

/-- The graph interface of lib.rs.  `nodes` lists the finite carrier of
node ids (the tests' `get_all_node_ids`); the solver never reads it. -/
structure Graph (I N : Type) where
  get : I → N
  get_entry : I
  get_exit : I
  get_preds : I → List I
  get_succs : I → List I
  nodes : List I

/-- The sealed direction strategy (problem.rs): exactly `Forward` and
`Backward` implement `Problem`. -/
inductive Direction where
  | forward
  | backward
deriving DecidableEq

/-- Embeds `Problem::assign`: Forward sets `before := joined; after := transd`,
Backward sets `before := transd; after := joined`. -/
def Direction.assign {F : Type} : Direction → F → F → NodeInfo F
  | .forward, joined, transd => ⟨joined, transd⟩
  | .backward, joined, transd => ⟨transd, joined⟩

/-- Embeds `Problem::get_nexts`: the ids to be re-analyzed after this node
(successors for Forward, predecessors for Backward). -/
def Direction.get_nexts {I N : Type} : Direction → Graph I N → I → List I
  | .forward, g, i => g.get_succs i
  | .backward, g, i => g.get_preds i

/-- Embeds `Problem::get_joins`: the ids whose facts are joined together
(predecessors for Forward, successors for Backward). -/
def Direction.get_joins {I N : Type} : Direction → Graph I N → I → List I
  | .forward, g, i => g.get_preds i
  | .backward, g, i => g.get_succs i

/-- Embeds `Problem::get_first`: the seed node (entry for Forward, exit for
Backward). -/
def Direction.get_first {I N : Type} : Direction → Graph I N → I
  | .forward, g => g.get_entry
  | .backward, g => g.get_exit

/-- Embeds `Problem::get_join_fact`: the side of a `NodeInfo` produced by the
transfer function (`after` for Forward, `before` for Backward). -/
def Direction.get_join_fact {F : Type} : Direction → NodeInfo F → F
  | .forward, info => info.after
  | .backward, info => info.before

/-- The analyzer record (analyze.rs): the seed node's initial info, the
default info for all other nodes, and the client's transfer and join
functions (pure in this embedding). -/
structure Analyzer (F N : Type) where
  first_fact : NodeInfo F
  init_fact : NodeInfo F
  trans : N → F → F
  join : List F → F

/-- Embeds `Analyzer::new_forward(top, trans, join)`. -/
def Analyzer.new_forward {F N : Type} (top : F) (trans : N → F → F)
    (join : List F → F) : Analyzer F N :=
  ⟨⟨top, top⟩, ⟨top, top⟩, trans, join⟩

/-- Embeds `Analyzer::new_backward(top, trans, join)`. -/
def Analyzer.new_backward {F N : Type} (top : F) (trans : N → F → F)
    (join : List F → F) : Analyzer F N :=
  ⟨⟨top, top⟩, ⟨top, top⟩, trans, join⟩

/-- Embeds `Analyzer::with_entry_fact` (Forward analyzers): replace the
`before` side of `first_fact`. -/
def Analyzer.with_entry_fact {F N : Type} (A : Analyzer F N) (enter : F) :
    Analyzer F N :=
  { A with first_fact := ⟨enter, A.first_fact.after⟩ }

/-- Embeds `Analyzer::with_exit_fact` (Backward analyzers): replace the
`after` side of `first_fact`. -/
def Analyzer.with_exit_fact {F N : Type} (A : Analyzer F N) (exitf : F) :
    Analyzer F N :=
  { A with first_fact := ⟨A.first_fact.before, exitf⟩ }

/-- Association-list lookup embedding `FnvHashMap::get`. -/
def lookupInfo {I F : Type} [DecidableEq I] :
    List (I × NodeInfo F) → I → Option (NodeInfo F)
  | [], _ => none
  | (j, v) :: rest, i => if j = i then some v else lookupInfo rest i

/-- In-place update of the binding for `i` (appending if absent),
embedding assignment through `FnvHashMap::entry`. -/
def setInfo {I F : Type} [DecidableEq I] :
    List (I × NodeInfo F) → I → NodeInfo F → List (I × NodeInfo F)
  | [], i, v => [(i, v)]
  | (j, w) :: rest, i, v =>
    if j = i then (i, v) :: rest else (j, w) :: setInfo rest i v

/-- Embeds `infos.entry(i).or_insert(d)`: insert `d` under `i` only when `i` is
absent. -/
def orInsert {I F : Type} [DecidableEq I] (infos : List (I × NodeInfo F))
    (i : I) (d : NodeInfo F) : List (I × NodeInfo F) :=
  match lookupInfo infos i with
  | some _ => infos
  | none => infos ++ [(i, d)]

/-- Lookup with a default, mirroring reads made right after an
`or_insert(d)`. -/
def lookupD {I F : Type} [DecidableEq I] (infos : List (I × NodeInfo F))
    (i : I) (d : NodeInfo F) : NodeInfo F :=
  (lookupInfo infos i).getD d

/-- The key set of the info table. -/
def infoKeys {I F : Type} (infos : List (I × NodeInfo F)) : List I :=
  infos.map Prod.fst

/-- The loop body of `Analyzer::solve_joins`: for each join source,
`or_insert` the default info and read its join fact.  Returns the facts
in source order together with the updated info table. -/
def joinReads {I F : Type} [DecidableEq I] (dir : Direction)
    (init_fact : NodeInfo F) :
    List (I × NodeInfo F) → List I → List F × List (I × NodeInfo F)
  | infos, [] => ([], infos)
  | infos, m :: rest =>
    let infos1 := orInsert infos m init_fact
    let f := Direction.get_join_fact dir (lookupD infos1 m init_fact)
    let res := joinReads dir init_fact infos1 rest
    (f :: res.1, res.2)

/-- Embeds `Analyzer::solve_joins`: join the collected facts of the node's join
sources. -/
def solve_joins {I F N : Type} [DecidableEq I] (dir : Direction)
    (A : Analyzer F N) (infos : List (I × NodeInfo F)) (srcs : List I) :
    F × List (I × NodeInfo F) :=
  let res := joinReads dir A.init_fact infos srcs
  (A.join res.1, res.2)

/-- The `worklist.contains`-guarded enqueue of the dirty targets: push each
target not already present, scanning the current worklist. -/
def enqueueAll {I : Type} [DecidableEq I] (wl : List I) (targets : List I) :
    List I :=
  targets.foldl (fun w t => if t ∈ w then w else w ++ [t]) wl

/-- The solver's state: the info table and the FIFO worklist, plus the
ghost fields `visited` (ids dequeued so far, in order) and `enqueued`
(every id ever pushed, including the seed). -/
structure SolveState (I F : Type) where
  infos : List (I × NodeInfo F)
  worklist : List I
  visited : List I
  enqueued : List I
deriving DecidableEq

/-- One iteration of the `while let Some(id) = worklist.pop_front()`
loop of `Analyzer::solve`; the identity on states whose worklist is
empty. -/
def stepSolve {I F N : Type} [DecidableEq I] [DecidableEq F]
    (dir : Direction) (A : Analyzer F N) (g : Graph I N)
    (s : SolveState I F) : SolveState I F :=
  match s.worklist with
  | [] => s
  | i :: rest =>
    let node := g.get i
    let res := joinReads dir A.init_fact s.infos (Direction.get_joins dir g i)
    let joined := A.join res.1
    let transd := A.trans node joined
    let infos2 := orInsert res.2 i A.init_fact
    let prev := Direction.get_join_fact dir (lookupD infos2 i A.init_fact)
    let wl2 :=
      if prev = transd then rest
      else enqueueAll rest (Direction.get_nexts dir g i)
    { infos := setInfo infos2 i (Direction.assign dir joined transd)
      worklist := wl2
      visited := s.visited ++ [i]
      enqueued := s.enqueued ++ wl2.drop rest.length }

/-- The state at the top of `Analyzer::solve`: the info table holds only
the seed node's `first_fact`, and the worklist holds the seed id. -/
def initState {I F N : Type} (dir : Direction) (A : Analyzer F N)
    (g : Graph I N) : SolveState I F :=
  { infos := [(Direction.get_first dir g, A.first_fact)]
    worklist := [Direction.get_first dir g]
    visited := []
    enqueued := [Direction.get_first dir g] }

/-- Iterate `stepSolve` a given number of times. -/
def runSolve {I F N : Type} [DecidableEq I] [DecidableEq F]
    (dir : Direction) (A : Analyzer F N) (g : Graph I N) :
    Nat → SolveState I F → SolveState I F
  | 0, s => s
  | fuel + 1, s => runSolve dir A g fuel (stepSolve dir A g s)

/-- The solve loop run for `fuel` iterations from the initial state.
`Analyzer::solve` returns `(solveRun dir A g fuel).infos` at any `fuel`
for which the worklist has become empty. -/
def solveRun {I F N : Type} [DecidableEq I] [DecidableEq F]
    (dir : Direction) (A : Analyzer F N) (g : Graph I N)
    (fuel : Nat) : SolveState I F :=
  runSolve dir A g fuel (initState dir A g)

/-- The join-fact side of the (defaulted) info stored for a node: the
value all joins and convergence tests read. -/
def viewOf {I F N : Type} [DecidableEq I] (dir : Direction)
    (A : Analyzer F N) (infos : List (I × NodeInfo F)) (i : I) : F :=
  Direction.get_join_fact dir (lookupD infos i A.init_fact)

/-- The `joined` value the loop computes for node `i` from an info
table: the client's join of the join-fact sides of the join sources
(absent sources defaulting to `init_fact`, as `or_insert` arranges). -/
def joinedOf {I F N : Type} [DecidableEq I] (dir : Direction)
    (A : Analyzer F N) (g : Graph I N) (infos : List (I × NodeInfo F))
    (i : I) : F :=
  A.join ((Direction.get_joins dir g i).map (viewOf dir A infos))

/-- The `transd` value the loop computes for node `i`: the transfer of
`joinedOf` at that node. -/
def transOf {I F N : Type} [DecidableEq I] (dir : Direction)
    (A : Analyzer F N) (g : Graph I N) (infos : List (I × NodeInfo F))
    (i : I) : F :=
  A.trans (g.get i) (joinedOf dir A g infos i)

/-- Graph well-formedness used by the fixpoint property: the
predecessor and successor lists are mutually consistent. -/
def WellLinked {I N : Type} (g : Graph I N) : Prop :=
  ∀ a b : I, a ∈ g.get_preds b ↔ b ∈ g.get_succs a

/-- The solver loop's main invariant: every visited node that is not
currently queued stores exactly the assignment of its currently joined
and transferred values. -/
def FixInv {I F N : Type} [DecidableEq I] (dir : Direction)
    (A : Analyzer F N) (g : Graph I N) (s : SolveState I F) : Prop :=
  ∀ n ∈ s.visited, n ∉ s.worklist →
    lookupD s.infos n A.init_fact =
      Direction.assign dir (joinedOf dir A g s.infos n)
        (transOf dir A g s.infos n)

/-- Well-formedness of a finite graph: the entry and exit ids and all
neighbour ids lie in the node list. -/
structure GraphWF {I N : Type} (g : Graph I N) : Prop where
  entry_mem : g.get_entry ∈ g.nodes
  exit_mem : g.get_exit ∈ g.nodes
  preds_mem : ∀ a ∈ g.nodes, ∀ b ∈ g.get_preds a, b ∈ g.nodes
  succs_mem : ∀ a ∈ g.nodes, ∀ b ∈ g.get_succs a, b ∈ g.nodes

/-- Monotonicity invariant used by the termination proof: every node's
stored join-fact is dominated by its currently transferred value. -/
def MonoInv {I F N : Type} [DecidableEq I] (dir : Direction)
    (A : Analyzer F N) (g : Graph I N) (le : F → F → Prop)
    (s : SolveState I F) : Prop :=
  ∀ n : I, le (viewOf dir A s.infos n) (transOf dir A g s.infos n)

/-- The worklist stays inside the graph's node list. -/
def WlInNodes {I F N : Type} (g : Graph I N) (s : SolveState I F) : Prop :=
  ∀ j ∈ s.worklist, j ∈ g.nodes

/-- One-coordinate strict ascent of fact vectors over a node list: some
listed coordinate strictly ascends (with respect to `r` read as ≤) and
every other coordinate is unchanged. -/
def RelVec {I F : Type} (nodes : List I) (r : F → F → Prop)
    (v' v : I → F) : Prop :=
  ∃ i ∈ nodes, (r (v i) (v' i) ∧ v i ≠ v' i) ∧ ∀ j, j ≠ i → v' j = v j

/-- Ghost invariant: every queued id has been recorded as enqueued. -/
def WlEnqueued {I F : Type} (s : SolveState I F) : Prop :=
  ∀ j ∈ s.worklist, j ∈ s.enqueued

/-- Ghost invariant: every key of the info table was either enqueued at
some point or read as a join source of some dequeued node. -/
def KeysCovered {I F N : Type} (dir : Direction) (g : Graph I N)
    (s : SolveState I F) : Prop :=
  ∀ j ∈ infoKeys s.infos, j ∈ s.enqueued ∨
    ∃ v ∈ s.visited, j ∈ Direction.get_joins dir g v

/-- Ghost invariant: every join source of a dequeued node is present in
the info table. -/
def JoinsPresent {I F N : Type} [DecidableEq I] (dir : Direction)
    (g : Graph I N) (s : SolveState I F) : Prop :=
  ∀ v ∈ s.visited, ∀ m ∈ Direction.get_joins dir g v,
    (lookupInfo s.infos m).isSome

/-- Ghost invariant: any table entry for a node that was never dequeued
(and is not the seed) still holds the default `init_fact`. -/
def UnvisitedDefault {I F N : Type} [DecidableEq I] (A : Analyzer F N)
    (first : I) (s : SolveState I F) : Prop :=
  ∀ j, j ∉ s.visited → j ≠ first → ∀ w,
    lookupInfo s.infos j = some w → w = A.init_fact

/-- The reversed graph: predecessors and successors swapped, entry and
exit swapped. -/
def Graph.reverse {I N : Type} (g : Graph I N) : Graph I N :=
  ⟨g.get, g.get_exit, g.get_entry, g.get_succs, g.get_preds, g.nodes⟩

/-- Swap the `before` and `after` sides of a `NodeInfo`. -/
def NodeInfo.swap {F : Type} (v : NodeInfo F) : NodeInfo F :=
  ⟨v.after, v.before⟩

/-- Swap both sides of every entry of an info table. -/
def swapInfos {I F : Type} (infos : List (I × NodeInfo F)) :
    List (I × NodeInfo F) :=
  infos.map (fun p => (p.1, p.2.swap))

/-- Swap both sides of every info in a solver state. -/
def SolveState.swapSides {I F : Type} (s : SolveState I F) :
    SolveState I F :=
  { s with infos := swapInfos s.infos }

/-- A one-node graph: entry = exit = 1, no edges. -/
def exGraph1 : Graph Nat Unit :=
  ⟨fun _ => (), 1, 1, fun _ => [], fun _ => [], [1]⟩

/-- A two-node graph whose node 2 is a predecessor of the entry node 1
but unreachable from it: entry = exit = 1, 2 → 1 the only edge. -/
def exGraph2 : Graph Nat Unit :=
  ⟨fun _ => (), 1, 1,
    fun i => if i = 1 then [2] else [],
    fun i => if i = 2 then [1] else [], [1, 2]⟩

/-- A join on `Nat` facts with `sumJoin [] = 0`; `0` acts as `top`. -/
def sumJoin : List Nat → Nat := fun l => l.foldr (· + ·) 0

/-- A forward analyzer over `Nat` facts with identity transfer, `top = 0`
and entry fact `1`. -/
def exForward1 : Analyzer Nat Unit :=
  (Analyzer.new_forward 0 (fun _ f => f) sumJoin).with_entry_fact 1

/-- As `exForward1` but with entry fact `2`. -/
def exForward2 : Analyzer Nat Unit :=
  (Analyzer.new_forward 0 (fun _ f => f) sumJoin).with_entry_fact 2

/-- A backward analyzer over `Nat` facts with identity transfer,
`top = 0` and exit fact `1`. -/
def exBackward1 : Analyzer Nat Unit :=
  (Analyzer.new_backward 0 (fun _ f => f) sumJoin).with_exit_fact 1

/-- As `exBackward1` but with exit fact `2`. -/
def exBackward2 : Analyzer Nat Unit :=
  (Analyzer.new_backward 0 (fun _ f => f) sumJoin).with_exit_fact 2

/-- A forward analyzer over the one-point fact lattice `Fin 1`. -/
def exTrivAnalyzer : Analyzer (Fin 1) Unit :=
  Analyzer.new_forward 0 (fun _ f => f) (fun _ => 0)

/-! ### Basic lemmas about the info table operations -/

theorem lookupInfo_setInfo_self {I F : Type} [DecidableEq I]
    (infos : List (I × NodeInfo F)) (i : I) (v : NodeInfo F) :
    lookupInfo (setInfo infos i v) i = some v := by
  induction infos with
  | nil => simp [setInfo, lookupInfo]
  | cons p rest ih =>
    obtain ⟨j, w⟩ := p
    by_cases h : j = i
    · simp [setInfo, h, lookupInfo]
    · simp [setInfo, h, lookupInfo, ih]

theorem lookupInfo_setInfo_ne {I F : Type} [DecidableEq I]
    (infos : List (I × NodeInfo F)) (i j : I) (v : NodeInfo F)
    (h : j ≠ i) :
    lookupInfo (setInfo infos i v) j = lookupInfo infos j := by
  induction infos with
  | nil => simp [setInfo, lookupInfo, Ne.symm h]
  | cons p rest ih =>
    obtain ⟨k, w⟩ := p
    by_cases hk : k = i
    · subst hk
      simp [setInfo, lookupInfo, Ne.symm h]
    · simp only [setInfo, if_neg hk, lookupInfo]
      by_cases hkj : k = j
      · simp [hkj]
      · simp [hkj, ih]

theorem lookupInfo_append_single_of_some {I F : Type} [DecidableEq I]
    (infos : List (I × NodeInfo F)) (i j : I) (d v : NodeInfo F)
    (h : lookupInfo infos j = some v) :
    lookupInfo (infos ++ [(i, d)]) j = some v := by
  induction infos with
  | nil => simp [lookupInfo] at h
  | cons p rest ih =>
    obtain ⟨k, w⟩ := p
    by_cases hk : k = j
    · simp only [lookupInfo, if_pos hk] at h
      simp [lookupInfo, hk, h]
    · simp only [lookupInfo, if_neg hk] at h
      simp [lookupInfo, hk, ih h]

theorem lookupInfo_append_single_of_none {I F : Type} [DecidableEq I]
    (infos : List (I × NodeInfo F)) (i j : I) (d : NodeInfo F)
    (h : lookupInfo infos j = none) :
    lookupInfo (infos ++ [(i, d)]) j = if i = j then some d else none := by
  induction infos with
  | nil => simp [lookupInfo]
  | cons p rest ih =>
    obtain ⟨k, w⟩ := p
    by_cases hk : k = j
    · simp [lookupInfo, hk] at h
    · simp only [lookupInfo, if_neg hk] at h
      simp [lookupInfo, hk, ih h]

theorem lookupInfo_orInsert_of_some {I F : Type} [DecidableEq I]
    (infos : List (I × NodeInfo F)) (i j : I) (d v : NodeInfo F)
    (h : lookupInfo infos j = some v) :
    lookupInfo (orInsert infos i d) j = some v := by
  unfold orInsert
  cases hl : lookupInfo infos i with
  | some w => exact h
  | none => exact lookupInfo_append_single_of_some _ _ _ _ _ h

theorem lookupD_orInsert {I F : Type} [DecidableEq I]
    (infos : List (I × NodeInfo F)) (i j : I) (d : NodeInfo F) :
    lookupD (orInsert infos i d) j d = lookupD infos j d := by
  unfold orInsert lookupD
  cases hl : lookupInfo infos i with
  | some w => rfl
  | none =>
    cases hj : lookupInfo infos j with
    | some v => rw [lookupInfo_append_single_of_some _ _ _ _ _ hj]
    | none =>
      rw [lookupInfo_append_single_of_none _ _ _ _ hj]
      by_cases hij : i = j
      · simp [hij]
      · simp [hij]

theorem lookupInfo_orInsert_self_isSome {I F : Type} [DecidableEq I]
    (infos : List (I × NodeInfo F)) (i : I) (d : NodeInfo F) :
    (lookupInfo (orInsert infos i d) i).isSome := by
  unfold orInsert
  cases hl : lookupInfo infos i with
  | some w => simp [hl]
  | none => rw [lookupInfo_append_single_of_none _ _ _ _ hl]; simp

theorem lookupInfo_orInsert_inv {I F : Type} [DecidableEq I]
    (infos : List (I × NodeInfo F)) (i j : I) (d v : NodeInfo F)
    (h : lookupInfo (orInsert infos i d) j = some v) :
    lookupInfo infos j = some v ∨ (v = d ∧ j = i) := by
  unfold orInsert at h
  cases hl : lookupInfo infos i with
  | some w => rw [hl] at h; exact Or.inl h
  | none =>
    rw [hl] at h
    cases hj : lookupInfo infos j with
    | some w => rw [lookupInfo_append_single_of_some _ _ _ _ _ hj] at h
                exact Or.inl h
    | none =>
      rw [lookupInfo_append_single_of_none _ _ _ _ hj] at h
      by_cases hij : i = j
      · rw [if_pos hij] at h
        simp at h
        exact Or.inr ⟨h.symm, hij.symm⟩
      · rw [if_neg hij] at h
        simp at h

theorem infoKeys_orInsert_sub {I F : Type} [DecidableEq I]
    (infos : List (I × NodeInfo F)) (i j : I) (d : NodeInfo F)
    (h : j ∈ infoKeys (orInsert infos i d)) :
    j ∈ infoKeys infos ∨ j = i := by
  unfold orInsert at h
  cases hl : lookupInfo infos i with
  | some w => rw [hl] at h; exact Or.inl h
  | none =>
    rw [hl] at h
    unfold infoKeys at h ⊢
    simp at h
    rcases h with h | h
    · exact Or.inl (by simpa [infoKeys] using h)
    · exact Or.inr h

theorem infoKeys_setInfo_sub {I F : Type} [DecidableEq I]
    (infos : List (I × NodeInfo F)) (i j : I) (v : NodeInfo F)
    (h : j ∈ infoKeys (setInfo infos i v)) :
    j ∈ infoKeys infos ∨ j = i := by
  induction infos with
  | nil => simp [setInfo, infoKeys] at h; exact Or.inr h
  | cons p rest ih =>
    obtain ⟨k, w⟩ := p
    by_cases hk : k = i
    · subst hk
      simp [setInfo, infoKeys] at h
      rcases h with h | h
      · exact Or.inr h
      · exact Or.inl (by simp [infoKeys, h])
    · simp only [setInfo, if_neg hk, infoKeys, List.map_cons, List.mem_cons] at h
      rcases h with h | h
      · exact Or.inl (by simp [infoKeys, h])
      · rcases ih (by simpa [infoKeys] using h) with h' | h'
        · exact Or.inl (by simp [infoKeys] at h' ⊢; exact Or.inr h')
        · exact Or.inr h'

theorem mem_infoKeys_iff_isSome {I F : Type} [DecidableEq I]
    (infos : List (I × NodeInfo F)) (j : I) :
    j ∈ infoKeys infos ↔ (lookupInfo infos j).isSome := by
  induction infos with
  | nil => simp [infoKeys, lookupInfo]
  | cons p rest ih =>
    obtain ⟨k, w⟩ := p
    by_cases hk : k = j
    · simp [infoKeys, lookupInfo, hk]
    · simp [infoKeys, lookupInfo, hk, ih] at ih ⊢
      constructor
      · rintro (h | h)
        · exact absurd h.symm hk
        · exact ih.mp h
      · intro h
        exact Or.inr (ih.mpr h)

/-! ### Lemmas about `joinReads` -/

theorem joinReads_lookupD {I F : Type} [DecidableEq I] (dir : Direction)
    (d : NodeInfo F) (srcs : List I) :
    ∀ (infos : List (I × NodeInfo F)) (j : I),
      lookupD (joinReads dir d infos srcs).2 j d = lookupD infos j d := by
  induction srcs with
  | nil => intro infos j; rfl
  | cons m rest ih =>
    intro infos j
    simp only [joinReads]
    rw [ih, lookupD_orInsert]

theorem joinReads_fst {I F : Type} [DecidableEq I] (dir : Direction)
    (d : NodeInfo F) (srcs : List I) :
    ∀ (infos : List (I × NodeInfo F)),
      (joinReads dir d infos srcs).1 =
        srcs.map (fun m => Direction.get_join_fact dir (lookupD infos m d)) := by
  induction srcs with
  | nil => intro infos; rfl
  | cons m rest ih =>
    intro infos
    simp only [joinReads, List.map_cons]
    rw [lookupD_orInsert, ih]
    have htail :
        List.map
          (fun a => Direction.get_join_fact dir (lookupD (orInsert infos m d) a d))
          rest
        = List.map (fun a => Direction.get_join_fact dir (lookupD infos a d))
            rest :=
      List.map_congr_left (fun a _ => by rw [lookupD_orInsert])
    rw [htail]

theorem joinReads_of_some {I F : Type} [DecidableEq I] (dir : Direction)
    (d : NodeInfo F) (srcs : List I) :
    ∀ (infos : List (I × NodeInfo F)) (j : I) (v : NodeInfo F),
      lookupInfo infos j = some v →
      lookupInfo (joinReads dir d infos srcs).2 j = some v := by
  induction srcs with
  | nil => intro infos j v h; exact h
  | cons m rest ih =>
    intro infos j v h
    simp only [joinReads]
    exact ih _ _ _ (lookupInfo_orInsert_of_some _ _ _ _ _ h)

theorem joinReads_isSome_of_mem {I F : Type} [DecidableEq I] (dir : Direction)
    (d : NodeInfo F) (srcs : List I) :
    ∀ (infos : List (I × NodeInfo F)) (m : I), m ∈ srcs →
      (lookupInfo (joinReads dir d infos srcs).2 m).isSome := by
  induction srcs with
  | nil => intro infos m h; cases h
  | cons a rest ih =>
    intro infos m h
    rcases List.mem_cons.mp h with h' | h'
    · subst h'
      simp only [joinReads]
      have := lookupInfo_orInsert_self_isSome infos m d
      cases hs : lookupInfo (orInsert infos m d) m with
      | none => rw [hs] at this; simp at this
      | some v =>
        have := joinReads_of_some dir d rest (orInsert infos m d) m v hs
        simp [this]
    · simp only [joinReads]
      exact ih _ _ h'

theorem joinReads_inv {I F : Type} [DecidableEq I] (dir : Direction)
    (d : NodeInfo F) (srcs : List I) :
    ∀ (infos : List (I × NodeInfo F)) (j : I) (v : NodeInfo F),
      lookupInfo (joinReads dir d infos srcs).2 j = some v →
      lookupInfo infos j = some v ∨ (v = d ∧ j ∈ srcs) := by
  induction srcs with
  | nil => intro infos j v h; exact Or.inl h
  | cons m rest ih =>
    intro infos j v h
    simp only [joinReads] at h
    rcases ih _ _ _ h with h' | h'
    · rcases lookupInfo_orInsert_inv _ _ _ _ _ h' with h'' | ⟨hv, hj⟩
      · exact Or.inl h''
      · exact Or.inr ⟨hv, by simp [hj]⟩
    · exact Or.inr ⟨h'.1, by simp [h'.2]⟩

theorem joinReads_keys_sub {I F : Type} [DecidableEq I] (dir : Direction)
    (d : NodeInfo F) (srcs : List I) :
    ∀ (infos : List (I × NodeInfo F)) (j : I),
      j ∈ infoKeys (joinReads dir d infos srcs).2 →
      j ∈ infoKeys infos ∨ j ∈ srcs := by
  induction srcs with
  | nil => intro infos j h; exact Or.inl h
  | cons m rest ih =>
    intro infos j h
    simp only [joinReads] at h
    rcases ih _ _ h with h' | h'
    · rcases infoKeys_orInsert_sub _ _ _ _ h' with h'' | h''
      · exact Or.inl h''
      · exact Or.inr (by simp [h''])
    · exact Or.inr (by simp [h'])

/-! ### Lemmas about `enqueueAll` -/

theorem prefix_enqueueAll {I : Type} [DecidableEq I] (targets : List I) :
    ∀ wl : List I, wl <+: enqueueAll wl targets := by
  induction targets with
  | nil => intro wl; exact List.prefix_refl wl
  | cons t rest ih =>
    intro wl
    simp only [enqueueAll, List.foldl_cons]
    by_cases h : t ∈ wl
    · simpa [enqueueAll, h] using ih wl
    · have h1 : wl <+: wl ++ [t] := List.prefix_append wl [t]
      have h2 := ih (wl ++ [t])
      simp only [enqueueAll] at h2
      exact h1.trans (by simpa [h] using h2)

theorem mem_enqueueAll_of_mem_left {I : Type} [DecidableEq I]
    (targets : List I) (wl : List I) (i : I) (h : i ∈ wl) :
    i ∈ enqueueAll wl targets := by
  obtain ⟨t, ht⟩ := prefix_enqueueAll targets wl
  rw [← ht]
  exact List.mem_append_left _ h

theorem enqueueAll_cons {I : Type} [DecidableEq I] (wl : List I) (t : I)
    (rest : List I) :
    enqueueAll wl (t :: rest) =
      enqueueAll (if t ∈ wl then wl else wl ++ [t]) rest := rfl

theorem mem_enqueueAll_of_mem_targets {I : Type} [DecidableEq I]
    (targets : List I) : ∀ (wl : List I) (i : I), i ∈ targets →
    i ∈ enqueueAll wl targets := by
  induction targets with
  | nil => intro wl i h; cases h
  | cons t rest ih =>
    intro wl i h
    rw [enqueueAll_cons]
    rcases List.mem_cons.mp h with h' | h'
    · subst h'
      by_cases hm : i ∈ wl
      · rw [if_pos hm]
        exact mem_enqueueAll_of_mem_left rest wl i hm
      · rw [if_neg hm]
        exact mem_enqueueAll_of_mem_left rest _ i
          (List.mem_append_right _ (by simp))
    · by_cases hm : t ∈ wl
      · rw [if_pos hm]; exact ih wl i h'
      · rw [if_neg hm]; exact ih _ i h'

theorem mem_enqueueAll_inv {I : Type} [DecidableEq I] (targets : List I) :
    ∀ (wl : List I) (i : I), i ∈ enqueueAll wl targets →
    i ∈ wl ∨ i ∈ targets := by
  induction targets with
  | nil => intro wl i h; exact Or.inl h
  | cons t rest ih =>
    intro wl i h
    simp only [enqueueAll, List.foldl_cons] at h
    by_cases hm : t ∈ wl
    · rw [if_pos hm] at h
      rcases ih wl i h with h' | h'
      · exact Or.inl h'
      · exact Or.inr (by simp [h'])
    · rw [if_neg hm] at h
      rcases ih (wl ++ [t]) i h with h' | h'
      · rcases List.mem_append.mp h' with h'' | h''
        · exact Or.inl h''
        · simp at h''
          exact Or.inr (by simp [h''])
      · exact Or.inr (by simp [h'])

theorem nodup_enqueueAll {I : Type} [DecidableEq I] (targets : List I) :
    ∀ wl : List I, wl.Nodup → (enqueueAll wl targets).Nodup := by
  induction targets with
  | nil => intro wl h; exact h
  | cons t rest ih =>
    intro wl h
    simp only [enqueueAll, List.foldl_cons]
    by_cases hm : t ∈ wl
    · simpa [hm] using ih wl h
    · have : (wl ++ [t]).Nodup := by
        simp [List.nodup_append, h, hm]
      simpa [hm] using ih (wl ++ [t]) this

theorem enqueueAll_eq_append_drop {I : Type} [DecidableEq I]
    (targets wl : List I) :
    enqueueAll wl targets = wl ++ (enqueueAll wl targets).drop wl.length := by
  obtain ⟨t, ht⟩ := prefix_enqueueAll targets wl
  conv_lhs => rw [← ht]
  rw [← ht, List.drop_left]

/-! ### Characterisation of one solver iteration -/

theorem get_join_fact_assign {F : Type} (dir : Direction) (j t : F) :
    Direction.get_join_fact dir (Direction.assign dir j t) = t := by
  cases dir <;> rfl

theorem stepSolve_cons {I F N : Type} [DecidableEq I] [DecidableEq F]
    (dir : Direction) (A : Analyzer F N) (g : Graph I N)
    (s : SolveState I F) (i : I) (rest : List I)
    (h : s.worklist = i :: rest) :
    stepSolve dir A g s =
      { infos :=
          setInfo
            (orInsert (joinReads dir A.init_fact s.infos
              (Direction.get_joins dir g i)).2 i A.init_fact)
            i
            (Direction.assign dir
              (A.join (joinReads dir A.init_fact s.infos
                (Direction.get_joins dir g i)).1)
              (A.trans (g.get i)
                (A.join (joinReads dir A.init_fact s.infos
                  (Direction.get_joins dir g i)).1)))
        worklist :=
          if Direction.get_join_fact dir
              (lookupD
                (orInsert (joinReads dir A.init_fact s.infos
                  (Direction.get_joins dir g i)).2 i A.init_fact)
                i A.init_fact) =
              A.trans (g.get i)
                (A.join (joinReads dir A.init_fact s.infos
                  (Direction.get_joins dir g i)).1)
          then rest
          else enqueueAll rest (Direction.get_nexts dir g i)
        visited := s.visited ++ [i]
        enqueued := s.enqueued ++
          (if Direction.get_join_fact dir
              (lookupD
                (orInsert (joinReads dir A.init_fact s.infos
                  (Direction.get_joins dir g i)).2 i A.init_fact)
                i A.init_fact) =
              A.trans (g.get i)
                (A.join (joinReads dir A.init_fact s.infos
                  (Direction.get_joins dir g i)).1)
          then rest
          else enqueueAll rest (Direction.get_nexts dir g i)).drop
            rest.length } := by
  obtain ⟨infos, wl, vis, enq⟩ := s
  simp only at h
  subst h
  rfl

theorem joinReads_join_eq_joinedOf {I F N : Type} [DecidableEq I]
    (dir : Direction) (A : Analyzer F N) (g : Graph I N)
    (infos : List (I × NodeInfo F)) (i : I) :
    A.join (joinReads dir A.init_fact infos
      (Direction.get_joins dir g i)).1 = joinedOf dir A g infos i := by
  rw [joinedOf, joinReads_fst]
  rfl

theorem step_prev_eq_view {I F N : Type} [DecidableEq I]
    (dir : Direction) (A : Analyzer F N) (g : Graph I N)
    (infos : List (I × NodeInfo F)) (i : I) :
    Direction.get_join_fact dir
      (lookupD
        (orInsert (joinReads dir A.init_fact infos
          (Direction.get_joins dir g i)).2 i A.init_fact)
        i A.init_fact) = viewOf dir A infos i := by
  rw [lookupD_orInsert, joinReads_lookupD]
  rfl

theorem step_lookupD {I F N : Type} [DecidableEq I] [DecidableEq F]
    (dir : Direction) (A : Analyzer F N) (g : Graph I N)
    (s : SolveState I F) (i : I) (rest : List I)
    (h : s.worklist = i :: rest) (j : I) :
    lookupD (stepSolve dir A g s).infos j A.init_fact =
      if j = i then
        Direction.assign dir (joinedOf dir A g s.infos i)
          (transOf dir A g s.infos i)
      else lookupD s.infos j A.init_fact := by
  rw [stepSolve_cons dir A g s i rest h]
  simp only
  by_cases hj : j = i
  · subst hj
    rw [if_pos rfl]
    unfold lookupD
    rw [lookupInfo_setInfo_self]
    rw [joinReads_join_eq_joinedOf]
    rfl
  · rw [if_neg hj]
    unfold lookupD
    rw [lookupInfo_setInfo_ne _ _ _ _ hj]
    have h1 := lookupD_orInsert (joinReads dir A.init_fact s.infos
      (Direction.get_joins dir g i)).2 i j A.init_fact
    have h2 := joinReads_lookupD dir A.init_fact
      (Direction.get_joins dir g i) s.infos j
    unfold lookupD at h1 h2
    rw [h1, h2]

theorem step_view {I F N : Type} [DecidableEq I] [DecidableEq F]
    (dir : Direction) (A : Analyzer F N) (g : Graph I N)
    (s : SolveState I F) (i : I) (rest : List I)
    (h : s.worklist = i :: rest) (j : I) :
    viewOf dir A (stepSolve dir A g s).infos j =
      if j = i then transOf dir A g s.infos i
      else viewOf dir A s.infos j := by
  unfold viewOf
  rw [step_lookupD dir A g s i rest h j]
  by_cases hj : j = i
  · rw [if_pos hj, if_pos hj, get_join_fact_assign]
  · rw [if_neg hj, if_neg hj]

theorem step_worklist {I F N : Type} [DecidableEq I] [DecidableEq F]
    (dir : Direction) (A : Analyzer F N) (g : Graph I N)
    (s : SolveState I F) (i : I) (rest : List I)
    (h : s.worklist = i :: rest) :
    (stepSolve dir A g s).worklist =
      if viewOf dir A s.infos i = transOf dir A g s.infos i then rest
      else enqueueAll rest (Direction.get_nexts dir g i) := by
  rw [stepSolve_cons dir A g s i rest h]
  simp only
  rw [step_prev_eq_view, joinReads_join_eq_joinedOf]
  rfl

theorem step_visited {I F N : Type} [DecidableEq I] [DecidableEq F]
    (dir : Direction) (A : Analyzer F N) (g : Graph I N)
    (s : SolveState I F) (i : I) (rest : List I)
    (h : s.worklist = i :: rest) :
    (stepSolve dir A g s).visited = s.visited ++ [i] := by
  rw [stepSolve_cons dir A g s i rest h]

theorem step_enqueued {I F N : Type} [DecidableEq I] [DecidableEq F]
    (dir : Direction) (A : Analyzer F N) (g : Graph I N)
    (s : SolveState I F) (i : I) (rest : List I)
    (h : s.worklist = i :: rest) :
    (stepSolve dir A g s).enqueued =
      s.enqueued ++ (stepSolve dir A g s).worklist.drop rest.length := by
  rw [stepSolve_cons dir A g s i rest h]

theorem stepSolve_nil {I F N : Type} [DecidableEq I] [DecidableEq F]
    (dir : Direction) (A : Analyzer F N) (g : Graph I N)
    (s : SolveState I F) (h : s.worklist = []) :
    stepSolve dir A g s = s := by
  obtain ⟨infos, wl, vis, enq⟩ := s
  simp only at h
  subst h
  rfl

theorem runSolve_succ {I F N : Type} [DecidableEq I] [DecidableEq F]
    (dir : Direction) (A : Analyzer F N) (g : Graph I N)
    (fuel : Nat) (s : SolveState I F) :
    runSolve dir A g (fuel + 1) s = runSolve dir A g fuel (stepSolve dir A g s) :=
  rfl

theorem step_lookup_i {I F N : Type} [DecidableEq I] [DecidableEq F]
    (dir : Direction) (A : Analyzer F N) (g : Graph I N)
    (s : SolveState I F) (i : I) (rest : List I)
    (h : s.worklist = i :: rest) :
    lookupInfo (stepSolve dir A g s).infos i =
      some (Direction.assign dir (joinedOf dir A g s.infos i)
        (transOf dir A g s.infos i)) := by
  rw [stepSolve_cons dir A g s i rest h]
  simp only
  rw [lookupInfo_setInfo_self, joinReads_join_eq_joinedOf]
  rfl

theorem step_lookup_some_ne {I F N : Type} [DecidableEq I] [DecidableEq F]
    (dir : Direction) (A : Analyzer F N) (g : Graph I N)
    (s : SolveState I F) (i : I) (rest : List I)
    (h : s.worklist = i :: rest) (j : I) (hj : j ≠ i) (v : NodeInfo F)
    (hv : lookupInfo s.infos j = some v) :
    lookupInfo (stepSolve dir A g s).infos j = some v := by
  rw [stepSolve_cons dir A g s i rest h]
  simp only
  rw [lookupInfo_setInfo_ne _ _ _ _ hj]
  exact lookupInfo_orInsert_of_some _ _ _ _ _
    (joinReads_of_some _ _ _ _ _ _ hv)

theorem step_lookup_inv_ne {I F N : Type} [DecidableEq I] [DecidableEq F]
    (dir : Direction) (A : Analyzer F N) (g : Graph I N)
    (s : SolveState I F) (i : I) (rest : List I)
    (h : s.worklist = i :: rest) (j : I) (hj : j ≠ i) (v : NodeInfo F)
    (hv : lookupInfo (stepSolve dir A g s).infos j = some v) :
    lookupInfo s.infos j = some v ∨
      (v = A.init_fact ∧ j ∈ Direction.get_joins dir g i) := by
  rw [stepSolve_cons dir A g s i rest h] at hv
  simp only at hv
  rw [lookupInfo_setInfo_ne _ _ _ _ hj] at hv
  rcases lookupInfo_orInsert_inv _ _ _ _ _ hv with hv' | ⟨_, hji⟩
  · exact joinReads_inv _ _ _ _ _ _ hv'
  · exact absurd hji hj

theorem step_keys_sub {I F N : Type} [DecidableEq I] [DecidableEq F]
    (dir : Direction) (A : Analyzer F N) (g : Graph I N)
    (s : SolveState I F) (i : I) (rest : List I)
    (h : s.worklist = i :: rest) (j : I)
    (hj : j ∈ infoKeys (stepSolve dir A g s).infos) :
    j ∈ infoKeys s.infos ∨ j ∈ Direction.get_joins dir g i ∨ j = i := by
  rw [stepSolve_cons dir A g s i rest h] at hj
  simp only at hj
  rcases infoKeys_setInfo_sub _ _ _ _ hj with hj' | hj'
  · rcases infoKeys_orInsert_sub _ _ _ _ hj' with hj'' | hj''
    · rcases joinReads_keys_sub _ _ _ _ _ hj'' with hk | hk
      · exact Or.inl hk
      · exact Or.inr (Or.inl hk)
    · exact Or.inr (Or.inr hj'')
  · exact Or.inr (Or.inr hj')

theorem step_isSome_mono {I F N : Type} [DecidableEq I] [DecidableEq F]
    (dir : Direction) (A : Analyzer F N) (g : Graph I N)
    (s : SolveState I F) (i : I) (rest : List I)
    (h : s.worklist = i :: rest) (j : I)
    (hj : (lookupInfo s.infos j).isSome) :
    (lookupInfo (stepSolve dir A g s).infos j).isSome := by
  by_cases hji : j = i
  · subst hji
    rw [step_lookup_i dir A g s j rest h]
    rfl
  · cases hv : lookupInfo s.infos j with
    | none => rw [hv] at hj; simp at hj
    | some v =>
      rw [step_lookup_some_ne dir A g s i rest h j hji v hv]
      rfl

theorem step_joins_isSome {I F N : Type} [DecidableEq I] [DecidableEq F]
    (dir : Direction) (A : Analyzer F N) (g : Graph I N)
    (s : SolveState I F) (i : I) (rest : List I)
    (h : s.worklist = i :: rest) (m : I)
    (hm : m ∈ Direction.get_joins dir g i) :
    (lookupInfo (stepSolve dir A g s).infos m).isSome := by
  rw [stepSolve_cons dir A g s i rest h]
  simp only
  have h1 := joinReads_isSome_of_mem dir A.init_fact
    (Direction.get_joins dir g i) s.infos m hm
  cases hv : lookupInfo (joinReads dir A.init_fact s.infos
      (Direction.get_joins dir g i)).2 m with
  | none => rw [hv] at h1; simp at h1
  | some v =>
    by_cases hmi : m = i
    · subst hmi
      rw [lookupInfo_setInfo_self]
      rfl
    · rw [lookupInfo_setInfo_ne _ _ _ _ hmi]
      rw [lookupInfo_orInsert_of_some _ _ _ _ _ hv]
      rfl

theorem step_nodup {I F N : Type} [DecidableEq I] [DecidableEq F]
    (dir : Direction) (A : Analyzer F N) (g : Graph I N)
    (s : SolveState I F) (h : s.worklist.Nodup) :
    (stepSolve dir A g s).worklist.Nodup := by
  cases hwl : s.worklist with
  | nil => rw [stepSolve_nil dir A g s hwl]; exact h
  | cons i rest =>
    rw [step_worklist dir A g s i rest hwl]
    have hrest : rest.Nodup := by
      rw [hwl] at h
      exact (List.nodup_cons.mp h).2
    by_cases hc : viewOf dir A s.infos i = transOf dir A g s.infos i
    · rw [if_pos hc]; exact hrest
    · rw [if_neg hc]; exact nodup_enqueueAll _ _ hrest

theorem step_enqueued_mono {I F N : Type} [DecidableEq I] [DecidableEq F]
    (dir : Direction) (A : Analyzer F N) (g : Graph I N)
    (s : SolveState I F) (j : I) (hj : j ∈ s.enqueued) :
    j ∈ (stepSolve dir A g s).enqueued := by
  cases hwl : s.worklist with
  | nil => rw [stepSolve_nil dir A g s hwl]; exact hj
  | cons i rest =>
    rw [step_enqueued dir A g s i rest hwl]
    exact List.mem_append_left _ hj

theorem enqueueAll_drop_sub {I : Type} [DecidableEq I] (targets : List I) :
    ∀ (wl : List I) (j : I),
      j ∈ (enqueueAll wl targets).drop wl.length → j ∈ targets := by
  induction targets with
  | nil =>
    intro wl j h
    simp only [enqueueAll, List.foldl_nil, List.drop_length] at h
    cases h
  | cons t rest ih =>
    intro wl j h
    rw [enqueueAll_cons] at h
    by_cases hm : t ∈ wl
    · rw [if_pos hm] at h
      exact List.mem_cons_of_mem _ (ih wl j h)
    · rw [if_neg hm] at h
      obtain ⟨tail, htail⟩ := prefix_enqueueAll rest (wl ++ [t])
      rw [← htail, List.append_assoc, List.drop_left] at h
      rcases List.mem_cons.mp h with h' | h'
      · exact h' ▸ List.mem_cons_self t rest
      · apply List.mem_cons_of_mem
        apply ih (wl ++ [t]) j
        rw [← htail, List.drop_left]
        exact h'

theorem step_enqueued_inv {I F N : Type} [DecidableEq I] [DecidableEq F]
    (dir : Direction) (A : Analyzer F N) (g : Graph I N)
    (s : SolveState I F) (i : I) (rest : List I)
    (h : s.worklist = i :: rest) (j : I)
    (hj : j ∈ (stepSolve dir A g s).enqueued) :
    j ∈ s.enqueued ∨ j ∈ Direction.get_nexts dir g i := by
  rw [step_enqueued dir A g s i rest h] at hj
  rcases List.mem_append.mp hj with hj' | hj'
  · exact Or.inl hj'
  · rw [step_worklist dir A g s i rest h] at hj'
    by_cases hc : viewOf dir A s.infos i = transOf dir A g s.infos i
    · rw [if_pos hc, List.drop_length] at hj'
      cases hj'
    · rw [if_neg hc] at hj'
      exact Or.inr (enqueueAll_drop_sub _ _ _ hj')

theorem step_wl_enqueued {I F N : Type} [DecidableEq I] [DecidableEq F]
    (dir : Direction) (A : Analyzer F N) (g : Graph I N)
    (s : SolveState I F) (hwl_enq : ∀ j ∈ s.worklist, j ∈ s.enqueued)
    (j : I) (hj : j ∈ (stepSolve dir A g s).worklist) :
    j ∈ (stepSolve dir A g s).enqueued := by
  cases hwl : s.worklist with
  | nil => rw [stepSolve_nil dir A g s hwl] at hj ⊢; exact hwl_enq j hj
  | cons i rest =>
    rw [step_enqueued dir A g s i rest hwl]
    have hpre : rest <+: (stepSolve dir A g s).worklist := by
      rw [step_worklist dir A g s i rest hwl]
      by_cases hc : viewOf dir A s.infos i = transOf dir A g s.infos i
      · rw [if_pos hc]
      · rw [if_neg hc]; exact prefix_enqueueAll _ _
    obtain ⟨tail, htail⟩ := hpre
    have hdrop : (stepSolve dir A g s).worklist.drop rest.length = tail := by
      rw [← htail, List.drop_left]
    rw [← htail] at hj
    rcases List.mem_append.mp hj with h1 | h1
    · exact List.mem_append_left _ (hwl_enq j (by rw [hwl]; exact List.mem_cons_of_mem _ h1))
    · exact List.mem_append_right _ (by rw [hdrop]; exact h1)

/-! ### The fixpoint invariant -/

theorem joins_nexts_dual {I N : Type} (g : Graph I N)
    (hsym : WellLinked g) (dir : Direction) (a b : I)
    (h : a ∈ Direction.get_joins dir g b) :
    b ∈ Direction.get_nexts dir g a := by
  cases dir with
  | forward => exact (hsym a b).mp h
  | backward => exact (hsym b a).mpr h

theorem joinedOf_congr {I F N : Type} [DecidableEq I] (dir : Direction)
    (A : Analyzer F N) (g : Graph I N)
    (infos1 infos2 : List (I × NodeInfo F)) (n : I)
    (h : ∀ m ∈ Direction.get_joins dir g n,
      viewOf dir A infos1 m = viewOf dir A infos2 m) :
    joinedOf dir A g infos1 n = joinedOf dir A g infos2 n := by
  unfold joinedOf
  rw [List.map_congr_left h]

theorem transOf_congr {I F N : Type} [DecidableEq I] (dir : Direction)
    (A : Analyzer F N) (g : Graph I N)
    (infos1 infos2 : List (I × NodeInfo F)) (n : I)
    (h : ∀ m ∈ Direction.get_joins dir g n,
      viewOf dir A infos1 m = viewOf dir A infos2 m) :
    transOf dir A g infos1 n = transOf dir A g infos2 n := by
  unfold transOf
  rw [joinedOf_congr dir A g infos1 infos2 n h]

theorem fixInv_init {I F N : Type} [DecidableEq I] (dir : Direction)
    (A : Analyzer F N) (g : Graph I N) :
    FixInv dir A g (initState dir A g) := by
  intro n hn
  cases hn

theorem fixInv_step {I F N : Type} [DecidableEq I] [DecidableEq F]
    (dir : Direction) (A : Analyzer F N) (g : Graph I N)
    (hsym : WellLinked g) (s : SolveState I F) (hinv : FixInv dir A g s) :
    FixInv dir A g (stepSolve dir A g s) := by
  cases hwl : s.worklist with
  | nil => rw [stepSolve_nil dir A g s hwl]; exact hinv
  | cons i rest =>
    intro n hn hnwl
    rw [step_visited dir A g s i rest hwl] at hn
    by_cases hc : viewOf dir A s.infos i = transOf dir A g s.infos i
    · -- converged iteration: all views are unchanged
      have hview : ∀ j, viewOf dir A (stepSolve dir A g s).infos j =
          viewOf dir A s.infos j := by
        intro j
        rw [step_view dir A g s i rest hwl j]
        by_cases hj : j = i
        · rw [if_pos hj, hj, ← hc]
        · rw [if_neg hj]
      have hjn : joinedOf dir A g (stepSolve dir A g s).infos n =
          joinedOf dir A g s.infos n :=
        joinedOf_congr dir A g _ _ n (fun m _ => hview m)
      have htn : transOf dir A g (stepSolve dir A g s).infos n =
          transOf dir A g s.infos n :=
        transOf_congr dir A g _ _ n (fun m _ => hview m)
      rw [hjn, htn, step_lookupD dir A g s i rest hwl n]
      by_cases hni : n = i
      · rw [if_pos hni, hni]
      · rw [if_neg hni]
        rw [step_worklist dir A g s i rest hwl, if_pos hc] at hnwl
        have hnv : n ∈ s.visited := by
          rcases List.mem_append.mp hn with h1 | h1
          · exact h1
          · simp at h1; exact absurd h1 hni
        have hnw : n ∉ s.worklist := by
          rw [hwl]
          intro hmem
          rcases List.mem_cons.mp hmem with h1 | h1
          · exact hni h1
          · exact hnwl h1
        exact hinv n hnv hnw
    · -- the transferred fact changed: the dirty targets were enqueued
      rw [step_worklist dir A g s i rest hwl, if_neg hc] at hnwl
      have hin : i ∉ Direction.get_joins dir g n := by
        intro hmem
        exact hnwl (mem_enqueueAll_of_mem_targets _ _ _
          (joins_nexts_dual g hsym dir i n hmem))
      have hview : ∀ m ∈ Direction.get_joins dir g n,
          viewOf dir A (stepSolve dir A g s).infos m =
            viewOf dir A s.infos m := by
        intro m hm
        rw [step_view dir A g s i rest hwl m]
        have hmi : m ≠ i := fun hmi => hin (hmi ▸ hm)
        rw [if_neg hmi]
      have hjn : joinedOf dir A g (stepSolve dir A g s).infos n =
          joinedOf dir A g s.infos n := joinedOf_congr dir A g _ _ n hview
      have htn : transOf dir A g (stepSolve dir A g s).infos n =
          transOf dir A g s.infos n := transOf_congr dir A g _ _ n hview
      rw [hjn, htn, step_lookupD dir A g s i rest hwl n]
      by_cases hni : n = i
      · rw [if_pos hni, hni]
      · rw [if_neg hni]
        have hnv : n ∈ s.visited := by
          rcases List.mem_append.mp hn with h1 | h1
          · exact h1
          · simp at h1; exact absurd h1 hni
        have hnw : n ∉ s.worklist := by
          rw [hwl]
          intro hmem
          rcases List.mem_cons.mp hmem with h1 | h1
          · exact hni h1
          · exact hnwl (mem_enqueueAll_of_mem_left _ _ _ h1)
        exact hinv n hnv hnw

theorem fixInv_run {I F N : Type} [DecidableEq I] [DecidableEq F]
    (dir : Direction) (A : Analyzer F N) (g : Graph I N)
    (hsym : WellLinked g) (fuel : Nat) :
    ∀ s : SolveState I F, FixInv dir A g s →
      FixInv dir A g (runSolve dir A g fuel s) := by
  induction fuel with
  | zero => intro s h; exact h
  | succ n ih =>
    intro s h
    exact ih _ (fixInv_step dir A g hsym s h)

/-! ### Ghost invariants through the run -/

theorem visited_sub_step {I F N : Type} [DecidableEq I] [DecidableEq F]
    (dir : Direction) (A : Analyzer F N) (g : Graph I N)
    (s : SolveState I F) :
    s.visited ⊆ (stepSolve dir A g s).visited := by
  cases hwl : s.worklist with
  | nil => rw [stepSolve_nil dir A g s hwl]; exact fun a h => h
  | cons i rest =>
    rw [step_visited dir A g s i rest hwl]
    exact List.subset_append_left _ _

theorem visited_sub_run {I F N : Type} [DecidableEq I] [DecidableEq F]
    (dir : Direction) (A : Analyzer F N) (g : Graph I N) (fuel : Nat) :
    ∀ s : SolveState I F, s.visited ⊆ (runSolve dir A g fuel s).visited := by
  induction fuel with
  | zero => intro s; exact fun a h => h
  | succ n ih =>
    intro s
    exact fun a h => ih (stepSolve dir A g s) (visited_sub_step dir A g s h)

theorem wlEnqueued_step {I F N : Type} [DecidableEq I] [DecidableEq F]
    (dir : Direction) (A : Analyzer F N) (g : Graph I N)
    (s : SolveState I F) (h : WlEnqueued s) :
    WlEnqueued (stepSolve dir A g s) :=
  fun j hj => step_wl_enqueued dir A g s h j hj

theorem keysCovered_step {I F N : Type} [DecidableEq I] [DecidableEq F]
    (dir : Direction) (A : Analyzer F N) (g : Graph I N)
    (s : SolveState I F) (hw : WlEnqueued s) (hk : KeysCovered dir g s) :
    KeysCovered dir g (stepSolve dir A g s) := by
  cases hwl : s.worklist with
  | nil => rw [stepSolve_nil dir A g s hwl]; exact hk
  | cons i rest =>
    intro j hj
    rcases step_keys_sub dir A g s i rest hwl j hj with h1 | h1 | h1
    · rcases hk j h1 with he | ⟨v, hv, hjv⟩
      · exact Or.inl (step_enqueued_mono dir A g s j he)
      · refine Or.inr ⟨v, ?_, hjv⟩
        rw [step_visited dir A g s i rest hwl]
        exact List.mem_append_left _ hv
    · refine Or.inr ⟨i, ?_, h1⟩
      rw [step_visited dir A g s i rest hwl]
      exact List.mem_append_right _ (by simp)
    · subst h1
      have : j ∈ s.enqueued := hw j (by rw [hwl]; exact List.mem_cons_self _ _)
      exact Or.inl (step_enqueued_mono dir A g s j this)

theorem joinsPresent_step {I F N : Type} [DecidableEq I] [DecidableEq F]
    (dir : Direction) (A : Analyzer F N) (g : Graph I N)
    (s : SolveState I F) (h : JoinsPresent dir g s) :
    JoinsPresent dir g (stepSolve dir A g s) := by
  cases hwl : s.worklist with
  | nil => rw [stepSolve_nil dir A g s hwl]; exact h
  | cons i rest =>
    intro v hv m hm
    rw [step_visited dir A g s i rest hwl] at hv
    rcases List.mem_append.mp hv with h1 | h1
    · exact step_isSome_mono dir A g s i rest hwl m (h v h1 m hm)
    · simp at h1
      subst h1
      exact step_joins_isSome dir A g s v rest hwl m hm

theorem unvisitedDefault_step {I F N : Type} [DecidableEq I] [DecidableEq F]
    (dir : Direction) (A : Analyzer F N) (g : Graph I N) (first : I)
    (s : SolveState I F) (h : UnvisitedDefault A first s) :
    UnvisitedDefault A first (stepSolve dir A g s) := by
  cases hwl : s.worklist with
  | nil => rw [stepSolve_nil dir A g s hwl]; exact h
  | cons i rest =>
    intro j hjv hjf w hw
    rw [step_visited dir A g s i rest hwl] at hjv
    have hji : j ≠ i := by
      intro hji
      exact hjv (List.mem_append_right _ (by simp [hji]))
    have hjvold : j ∉ s.visited := fun hmem =>
      hjv (List.mem_append_left _ hmem)
    rcases step_lookup_inv_ne dir A g s i rest hwl j hji w hw with h1 | h1
    · exact h j hjvold hjf w h1
    · exact h1.1

theorem wlEnqueued_run {I F N : Type} [DecidableEq I] [DecidableEq F]
    (dir : Direction) (A : Analyzer F N) (g : Graph I N) (fuel : Nat) :
    ∀ s : SolveState I F, WlEnqueued s →
      WlEnqueued (runSolve dir A g fuel s) := by
  induction fuel with
  | zero => intro s h; exact h
  | succ n ih => intro s h; exact ih _ (wlEnqueued_step dir A g s h)

theorem keysCovered_run {I F N : Type} [DecidableEq I] [DecidableEq F]
    (dir : Direction) (A : Analyzer F N) (g : Graph I N) (fuel : Nat) :
    ∀ s : SolveState I F, WlEnqueued s → KeysCovered dir g s →
      KeysCovered dir g (runSolve dir A g fuel s) := by
  induction fuel with
  | zero => intro s _ hk; exact hk
  | succ n ih =>
    intro s hw hk
    exact ih _ (wlEnqueued_step dir A g s hw)
      (keysCovered_step dir A g s hw hk)

theorem joinsPresent_run {I F N : Type} [DecidableEq I] [DecidableEq F]
    (dir : Direction) (A : Analyzer F N) (g : Graph I N) (fuel : Nat) :
    ∀ s : SolveState I F, JoinsPresent dir g s →
      JoinsPresent dir g (runSolve dir A g fuel s) := by
  induction fuel with
  | zero => intro s h; exact h
  | succ n ih => intro s h; exact ih _ (joinsPresent_step dir A g s h)

theorem unvisitedDefault_run {I F N : Type} [DecidableEq I] [DecidableEq F]
    (dir : Direction) (A : Analyzer F N) (g : Graph I N) (first : I)
    (fuel : Nat) :
    ∀ s : SolveState I F, UnvisitedDefault A first s →
      UnvisitedDefault A first (runSolve dir A g fuel s) := by
  induction fuel with
  | zero => intro s h; exact h
  | succ n ih => intro s h; exact ih _ (unvisitedDefault_step dir A g first s h)

theorem nodup_run {I F N : Type} [DecidableEq I] [DecidableEq F]
    (dir : Direction) (A : Analyzer F N) (g : Graph I N) (fuel : Nat) :
    ∀ s : SolveState I F, s.worklist.Nodup →
      (runSolve dir A g fuel s).worklist.Nodup := by
  induction fuel with
  | zero => intro s h; exact h
  | succ n ih => intro s h; exact ih _ (step_nodup dir A g s h)

theorem wlEnqueued_init {I F N : Type} (dir : Direction) (A : Analyzer F N)
    (g : Graph I N) : WlEnqueued (initState dir A g) := by
  intro j hj
  exact hj

theorem keysCovered_init {I F N : Type} (dir : Direction) (A : Analyzer F N)
    (g : Graph I N) : KeysCovered dir g (initState dir A g) := by
  intro j hj
  simp [initState, infoKeys] at hj
  exact Or.inl (by simp [initState, hj])

theorem joinsPresent_init {I F N : Type} [DecidableEq I] (dir : Direction)
    (A : Analyzer F N) (g : Graph I N) :
    JoinsPresent dir g (initState dir A g) := by
  intro v hv
  cases hv

theorem unvisitedDefault_init {I F N : Type} [DecidableEq I]
    (dir : Direction) (A : Analyzer F N) (g : Graph I N) :
    UnvisitedDefault A (Direction.get_first dir g) (initState dir A g) := by
  intro j _ hjf w hw
  simp [initState, lookupInfo] at hw
  rcases hw with ⟨h1, _⟩
  exact absurd h1.symm hjf

theorem first_visited_of_terminated {I F N : Type} [DecidableEq I]
    [DecidableEq F] (dir : Direction) (A : Analyzer F N) (g : Graph I N)
    (fuel : Nat) (hterm : (solveRun dir A g fuel).worklist = []) :
    Direction.get_first dir g ∈ (solveRun dir A g fuel).visited := by
  cases fuel with
  | zero =>
    exact absurd hterm (by simp [solveRun, runSolve, initState])
  | succ n =>
    have hstep : Direction.get_first dir g ∈
        (stepSolve dir A g (initState dir A g)).visited := by
      rw [step_visited dir A g (initState dir A g)
        (Direction.get_first dir g) [] rfl]
      simp
    exact visited_sub_run dir A g n _ hstep

/-! ### Congruence: the run is a function of the (extensional) inputs -/

theorem stepSolve_congr {I F N : Type} [DecidableEq I] [DecidableEq F]
    (dir : Direction) (A₁ A₂ : Analyzer F N) (g₁ g₂ : Graph I N)
    (hinit : A₁.init_fact = A₂.init_fact)
    (htrans : ∀ nd f, A₁.trans nd f = A₂.trans nd f)
    (hjoin : ∀ l, A₁.join l = A₂.join l)
    (hget : ∀ i, g₁.get i = g₂.get i)
    (hpreds : ∀ i, g₁.get_preds i = g₂.get_preds i)
    (hsuccs : ∀ i, g₁.get_succs i = g₂.get_succs i)
    (s : SolveState I F) :
    stepSolve dir A₁ g₁ s = stepSolve dir A₂ g₂ s := by
  have htf : A₁.trans = A₂.trans := funext fun nd => funext (htrans nd)
  have hjf : A₁.join = A₂.join := funext hjoin
  have hgf : g₁.get = g₂.get := funext hget
  cases hwl : s.worklist with
  | nil => rw [stepSolve_nil dir A₁ g₁ s hwl, stepSolve_nil dir A₂ g₂ s hwl]
  | cons i rest =>
    have hjoins : Direction.get_joins dir g₁ i = Direction.get_joins dir g₂ i := by
      cases dir with
      | forward => exact hpreds i
      | backward => exact hsuccs i
    have hnexts : Direction.get_nexts dir g₁ i = Direction.get_nexts dir g₂ i := by
      cases dir with
      | forward => exact hsuccs i
      | backward => exact hpreds i
    rw [stepSolve_cons dir A₁ g₁ s i rest hwl,
      stepSolve_cons dir A₂ g₂ s i rest hwl,
      hjoins, hnexts, hinit, htf, hjf, hgf]

theorem runSolve_congr {I F N : Type} [DecidableEq I] [DecidableEq F]
    (dir : Direction) (A₁ A₂ : Analyzer F N) (g₁ g₂ : Graph I N)
    (hinit : A₁.init_fact = A₂.init_fact)
    (htrans : ∀ nd f, A₁.trans nd f = A₂.trans nd f)
    (hjoin : ∀ l, A₁.join l = A₂.join l)
    (hget : ∀ i, g₁.get i = g₂.get i)
    (hpreds : ∀ i, g₁.get_preds i = g₂.get_preds i)
    (hsuccs : ∀ i, g₁.get_succs i = g₂.get_succs i)
    (fuel : Nat) :
    ∀ s : SolveState I F,
      runSolve dir A₁ g₁ fuel s = runSolve dir A₂ g₂ fuel s := by
  induction fuel with
  | zero => intro s; rfl
  | succ n ih =>
    intro s
    rw [runSolve_succ, runSolve_succ,
      stepSolve_congr dir A₁ A₂ g₁ g₂ hinit htrans hjoin hget hpreds hsuccs s]
    exact ih _

/-! ### Direction duality -/

theorem lookupInfo_swapInfos {I F : Type} [DecidableEq I]
    (infos : List (I × NodeInfo F)) (i : I) :
    lookupInfo (swapInfos infos) i = (lookupInfo infos i).map NodeInfo.swap := by
  induction infos with
  | nil => rfl
  | cons p rest ih =>
    obtain ⟨j, v⟩ := p
    by_cases hj : j = i
    · simp [swapInfos, lookupInfo, hj]
    · simp only [swapInfos, List.map_cons, lookupInfo, if_neg hj]
      simpa [swapInfos] using ih

theorem lookupD_swapInfos {I F : Type} [DecidableEq I]
    (infos : List (I × NodeInfo F)) (i : I) (d : NodeInfo F) :
    lookupD (swapInfos infos) i d.swap = (lookupD infos i d).swap := by
  unfold lookupD
  rw [lookupInfo_swapInfos]
  cases lookupInfo infos i with
  | none => rfl
  | some v => rfl

theorem get_join_fact_swap {F : Type} (v : NodeInfo F) :
    Direction.get_join_fact .backward v.swap = Direction.get_join_fact .forward v := rfl

theorem assign_swap {F : Type} (j t : F) :
    Direction.assign .backward j t = (Direction.assign (F := F) .forward j t).swap := rfl

theorem setInfo_swapInfos {I F : Type} [DecidableEq I]
    (infos : List (I × NodeInfo F)) (i : I) (v : NodeInfo F) :
    setInfo (swapInfos infos) i v.swap = swapInfos (setInfo infos i v) := by
  induction infos with
  | nil => rfl
  | cons p rest ih =>
    obtain ⟨j, w⟩ := p
    by_cases hj : j = i
    · simp [swapInfos, setInfo, hj]
    · simp only [swapInfos, List.map_cons, setInfo, if_neg hj]
      simpa [swapInfos] using ih

theorem orInsert_swapInfos {I F : Type} [DecidableEq I]
    (infos : List (I × NodeInfo F)) (i : I) (d : NodeInfo F) :
    orInsert (swapInfos infos) i d.swap = swapInfos (orInsert infos i d) := by
  unfold orInsert
  rw [lookupInfo_swapInfos]
  cases lookupInfo infos i with
  | none => simp [swapInfos]
  | some v => rfl

theorem joinReads_swapInfos {I F : Type} [DecidableEq I]
    (d : NodeInfo F) (srcs : List I) :
    ∀ infos : List (I × NodeInfo F),
      joinReads .backward d.swap (swapInfos infos) srcs =
        ((joinReads .forward d infos srcs).1,
          swapInfos (joinReads .forward d infos srcs).2) := by
  induction srcs with
  | nil => intro infos; rfl
  | cons m rest ih =>
    intro infos
    simp only [joinReads]
    rw [orInsert_swapInfos, ih, lookupD_swapInfos, get_join_fact_swap]

theorem reverse_get_joins {I N : Type} (g : Graph I N) (i : I) :
    Direction.get_joins .backward g.reverse i = Direction.get_joins .forward g i := rfl

theorem reverse_get_nexts {I N : Type} (g : Graph I N) (i : I) :
    Direction.get_nexts .backward g.reverse i = Direction.get_nexts .forward g i := rfl

theorem reverse_get_first {I N : Type} (g : Graph I N) :
    Direction.get_first .backward g.reverse = Direction.get_first .forward g := rfl

theorem stepSolve_swap {I F N : Type} [DecidableEq I] [DecidableEq F]
    (A : Analyzer F N) (g : Graph I N) (s : SolveState I F) :
    stepSolve .backward
      ⟨A.first_fact.swap, A.init_fact.swap, A.trans, A.join⟩
      g.reverse s.swapSides =
      (stepSolve .forward A g s).swapSides := by
  cases hwl : s.worklist with
  | nil =>
    rw [stepSolve_nil _ _ _ _ hwl]
    rw [stepSolve_nil]
    exact hwl
  | cons i rest =>
    have hwl' : s.swapSides.worklist = i :: rest := hwl
    rw [stepSolve_cons .backward
      ⟨A.first_fact.swap, A.init_fact.swap, A.trans, A.join⟩
      g.reverse s.swapSides i rest hwl']
    rw [stepSolve_cons .forward A g s i rest hwl]
    simp only [SolveState.swapSides, reverse_get_joins, reverse_get_nexts,
      joinReads_swapInfos, orInsert_swapInfos, lookupD_swapInfos,
      get_join_fact_swap, assign_swap, setInfo_swapInfos]
    rfl

theorem runSolve_swap {I F N : Type} [DecidableEq I] [DecidableEq F]
    (A : Analyzer F N) (g : Graph I N) (fuel : Nat) :
    ∀ s : SolveState I F,
      runSolve .backward ⟨A.first_fact.swap, A.init_fact.swap, A.trans, A.join⟩
        g.reverse fuel s.swapSides =
        (runSolve .forward A g fuel s).swapSides := by
  induction fuel with
  | zero => intro s; rfl
  | succ n ih =>
    intro s
    rw [runSolve_succ, runSolve_succ, stepSolve_swap A g s]
    exact ih _

theorem initState_swap {I F N : Type} (A : Analyzer F N) (g : Graph I N) :
    initState .backward ⟨A.first_fact.swap, A.init_fact.swap, A.trans, A.join⟩
      g.reverse = (initState .forward A g).swapSides := rfl

/-! ### The seed fact is dead: only its join-fact side is ever read -/

theorem joinReads_seed {I F : Type} [DecidableEq I] (dir : Direction)
    (d : NodeInfo F) (srcs : List I) :
    ∀ (first : I) (ff₁ ff₂ : NodeInfo F) (tl : List (I × NodeInfo F)),
      Direction.get_join_fact dir ff₁ = Direction.get_join_fact dir ff₂ →
      ∃ fs tl',
        joinReads dir d ((first, ff₁) :: tl) srcs = (fs, (first, ff₁) :: tl') ∧
        joinReads dir d ((first, ff₂) :: tl) srcs = (fs, (first, ff₂) :: tl') := by
  induction srcs with
  | nil =>
    intro first ff₁ ff₂ tl _
    exact ⟨[], tl, rfl, rfl⟩
  | cons m rest ih =>
    intro first ff₁ ff₂ tl h
    by_cases hm : first = m
    · subst hm
      obtain ⟨fs, tl', h1, h2⟩ := ih first ff₁ ff₂ tl h
      have ho₁ : orInsert ((first, ff₁) :: tl) first d = (first, ff₁) :: tl := by
        simp [orInsert, lookupInfo]
      have ho₂ : orInsert ((first, ff₂) :: tl) first d = (first, ff₂) :: tl := by
        simp [orInsert, lookupInfo]
      have hr₁ : lookupD ((first, ff₁) :: tl) first d = ff₁ := by
        simp [lookupD, lookupInfo]
      have hr₂ : lookupD ((first, ff₂) :: tl) first d = ff₂ := by
        simp [lookupD, lookupInfo]
      refine ⟨Direction.get_join_fact dir ff₁ :: fs, tl', ?_, ?_⟩
      · simp only [joinReads, ho₁, hr₁, h1]
      · simp only [joinReads, ho₂, hr₂, h2, h]
    · cases htl : lookupInfo tl m with
      | some v =>
        obtain ⟨fs, tl', h1, h2⟩ := ih first ff₁ ff₂ tl h
        have hl₁ : lookupInfo ((first, ff₁) :: tl) m = some v := by
          simp [lookupInfo, hm, htl]
        have hl₂ : lookupInfo ((first, ff₂) :: tl) m = some v := by
          simp [lookupInfo, hm, htl]
        have ho₁ : orInsert ((first, ff₁) :: tl) m d = (first, ff₁) :: tl := by
          simp [orInsert, hl₁]
        have ho₂ : orInsert ((first, ff₂) :: tl) m d = (first, ff₂) :: tl := by
          simp [orInsert, hl₂]
        have hr₁ : lookupD ((first, ff₁) :: tl) m d = v := by
          simp [lookupD, hl₁]
        have hr₂ : lookupD ((first, ff₂) :: tl) m d = v := by
          simp [lookupD, hl₂]
        refine ⟨Direction.get_join_fact dir v :: fs, tl', ?_, ?_⟩
        · simp only [joinReads, ho₁, hr₁, h1]
        · simp only [joinReads, ho₂, hr₂, h2]
      | none =>
        obtain ⟨fs, tl', h1, h2⟩ := ih first ff₁ ff₂ (tl ++ [(m, d)]) h
        have hl₁ : lookupInfo ((first, ff₁) :: tl) m = none := by
          simp [lookupInfo, hm, htl]
        have hl₂ : lookupInfo ((first, ff₂) :: tl) m = none := by
          simp [lookupInfo, hm, htl]
        have ho₁ : orInsert ((first, ff₁) :: tl) m d =
            (first, ff₁) :: (tl ++ [(m, d)]) := by
          simp [orInsert, hl₁]
        have ho₂ : orInsert ((first, ff₂) :: tl) m d =
            (first, ff₂) :: (tl ++ [(m, d)]) := by
          simp [orInsert, hl₂]
        have hlm : lookupInfo (tl ++ [(m, d)]) m = some d := by
          rw [lookupInfo_append_single_of_none _ _ _ _ htl]
          simp
        have hr₁ : lookupD ((first, ff₁) :: (tl ++ [(m, d)])) m d = d := by
          simp [lookupD, lookupInfo, hm, hlm]
        have hr₂ : lookupD ((first, ff₂) :: (tl ++ [(m, d)])) m d = d := by
          simp [lookupD, lookupInfo, hm, hlm]
        refine ⟨Direction.get_join_fact dir d :: fs, tl', ?_, ?_⟩
        · simp only [joinReads, ho₁, hr₁, h1]
        · simp only [joinReads, ho₂, hr₂, h2]

theorem stepSolve_seed_congr {I F N : Type} [DecidableEq I] [DecidableEq F]
    (dir : Direction) (A₁ A₂ : Analyzer F N) (g : Graph I N)
    (hinit : A₁.init_fact = A₂.init_fact)
    (htr : A₁.trans = A₂.trans) (hj : A₁.join = A₂.join)
    (hjf : Direction.get_join_fact dir A₁.first_fact =
      Direction.get_join_fact dir A₂.first_fact) :
    stepSolve dir A₁ g (initState dir A₁ g) =
      stepSolve dir A₂ g (initState dir A₂ g) := by
  have hwl₁ : (initState dir A₁ g).worklist = Direction.get_first dir g :: [] := rfl
  have hwl₂ : (initState dir A₂ g).worklist = Direction.get_first dir g :: [] := rfl
  rw [stepSolve_cons dir A₁ g _ (Direction.get_first dir g) [] hwl₁,
    stepSolve_cons dir A₂ g _ (Direction.get_first dir g) [] hwl₂]
  obtain ⟨fs, tl', h1, h2⟩ := joinReads_seed dir A₂.init_fact
    (Direction.get_joins dir g (Direction.get_first dir g))
    (Direction.get_first dir g) A₁.first_fact A₂.first_fact [] hjf
  have hin₁ : (initState dir A₁ g).infos =
      (Direction.get_first dir g, A₁.first_fact) :: [] := rfl
  have hin₂ : (initState dir A₂ g).infos =
      (Direction.get_first dir g, A₂.first_fact) :: [] := rfl
  have hvi₁ : (initState dir A₁ g).visited = [] := rfl
  have hvi₂ : (initState dir A₂ g).visited = [] := rfl
  have hen₁ : (initState dir A₁ g).enqueued = [Direction.get_first dir g] := rfl
  have hen₂ : (initState dir A₂ g).enqueued = [Direction.get_first dir g] := rfl
  have ho₁ : orInsert ((Direction.get_first dir g, A₁.first_fact) :: tl')
      (Direction.get_first dir g) A₂.init_fact =
      (Direction.get_first dir g, A₁.first_fact) :: tl' := by
    simp [orInsert, lookupInfo]
  have ho₂ : orInsert ((Direction.get_first dir g, A₂.first_fact) :: tl')
      (Direction.get_first dir g) A₂.init_fact =
      (Direction.get_first dir g, A₂.first_fact) :: tl' := by
    simp [orInsert, lookupInfo]
  have hr₁ : lookupD ((Direction.get_first dir g, A₁.first_fact) :: tl')
      (Direction.get_first dir g) A₂.init_fact = A₁.first_fact := by
    simp [lookupD, lookupInfo]
  have hr₂ : lookupD ((Direction.get_first dir g, A₂.first_fact) :: tl')
      (Direction.get_first dir g) A₂.init_fact = A₂.first_fact := by
    simp [lookupD, lookupInfo]
  have hs₁ : ∀ v : NodeInfo F,
      setInfo ((Direction.get_first dir g, A₁.first_fact) :: tl')
        (Direction.get_first dir g) v = (Direction.get_first dir g, v) :: tl' := by
    intro v
    simp [setInfo]
  have hs₂ : ∀ v : NodeInfo F,
      setInfo ((Direction.get_first dir g, A₂.first_fact) :: tl')
        (Direction.get_first dir g) v = (Direction.get_first dir g, v) :: tl' := by
    intro v
    simp [setInfo]
  simp only [hin₁, hin₂, hvi₁, hvi₂, hen₁, hen₂, hinit, htr, hj, h1, h2,
    ho₁, ho₂, hr₁, hr₂, hjf, hs₁, hs₂]

theorem runSolve_seed_congr {I F N : Type} [DecidableEq I] [DecidableEq F]
    (dir : Direction) (A₁ A₂ : Analyzer F N) (g : Graph I N)
    (hinit : A₁.init_fact = A₂.init_fact)
    (htr : A₁.trans = A₂.trans) (hj : A₁.join = A₂.join)
    (hjf : Direction.get_join_fact dir A₁.first_fact =
      Direction.get_join_fact dir A₂.first_fact)
    (fuel : Nat) (hfuel : 1 ≤ fuel) :
    solveRun dir A₁ g fuel = solveRun dir A₂ g fuel := by
  cases fuel with
  | zero => cases hfuel
  | succ n =>
    show runSolve dir A₁ g (n + 1) (initState dir A₁ g) =
      runSolve dir A₂ g (n + 1) (initState dir A₂ g)
    rw [runSolve_succ, runSolve_succ,
      stepSolve_seed_congr dir A₁ A₂ g hinit htr hj hjf]
    have hcongr := runSolve_congr dir A₁ A₂ g g hinit
      (fun nd f => by rw [htr]) (fun l => by rw [hj])
      (fun i => rfl) (fun i => rfl) (fun i => rfl) n
    exact hcongr _

/-! ### Termination -/

theorem relVec_wf {I F : Type} (le : F → F → Prop)
    (hr : WellFounded (fun a b : F => le b a ∧ b ≠ a)) :
    ∀ nodes : List I, WellFounded (RelVec nodes le) := by
  intro nodes
  induction nodes with
  | nil =>
    constructor
    intro a
    constructor
    intro y hy
    obtain ⟨i, hi, _⟩ := hy
    cases hi
  | cons a t ih =>
    have hsub : ∀ v' v : I → F, RelVec (a :: t) le v' v →
        InvImage (Prod.Lex (fun x y : F => le y x ∧ y ≠ x) (RelVec t le))
          (fun v : I → F => (v a, v)) v' v := by
      intro v' v hrel
      obtain ⟨i, hi, ⟨hle, hne⟩, heq⟩ := hrel
      unfold InvImage
      show Prod.Lex (fun x y : F => le y x ∧ y ≠ x) (RelVec t le)
        (v' a, v') (v a, v)
      by_cases hia : i = a
      · subst hia
        exact Prod.Lex.left _ _ ⟨hle, hne⟩
      · have hva : v' a = v a := heq a (fun hc => hia hc.symm)
        rw [hva]
        refine Prod.Lex.right _ ⟨i, ?_, ⟨hle, hne⟩, heq⟩
        rcases List.mem_cons.mp hi with h | h
        · exact absurd h hia
        · exact h
    exact Subrelation.wf (fun {x y} h => hsub x y h)
      (InvImage.wf _ (WellFounded.prod_lex hr ih))

theorem forall₂_map_le {J F : Type} (le : F → F → Prop) (l : List J)
    (f g : J → F) (h : ∀ a ∈ l, le (f a) (g a)) :
    List.Forall₂ le (l.map f) (l.map g) := by
  induction l with
  | nil => exact List.Forall₂.nil
  | cons a t ih =>
    exact List.Forall₂.cons (h a (List.mem_cons_self _ _))
      (ih (fun b hb => h b (List.mem_cons_of_mem _ hb)))

theorem monoInv_step {I F N : Type} [DecidableEq I] [DecidableEq F]
    (dir : Direction) (A : Analyzer F N) (g : Graph I N)
    (le : F → F → Prop)
    (hrefl : ∀ x, le x x)
    (htle : ∀ x y z, le x y → le y z → le x z)
    (hmt : ∀ nd f₁ f₂, le f₁ f₂ → le (A.trans nd f₁) (A.trans nd f₂))
    (hmj : ∀ l₁ l₂, List.Forall₂ le l₁ l₂ → le (A.join l₁) (A.join l₂))
    (s : SolveState I F) (hI : MonoInv dir A g le s) :
    MonoInv dir A g le (stepSolve dir A g s) := by
  cases hwl : s.worklist with
  | nil => rw [stepSolve_nil dir A g s hwl]; exact hI
  | cons i rest =>
    have hascend : ∀ j, le (viewOf dir A s.infos j)
        (viewOf dir A (stepSolve dir A g s).infos j) := by
      intro j
      rw [step_view dir A g s i rest hwl j]
      by_cases hj : j = i
      · rw [if_pos hj, hj]
        exact hI i
      · rw [if_neg hj]
        exact hrefl _
    have hJ : ∀ n, le (joinedOf dir A g s.infos n)
        (joinedOf dir A g (stepSolve dir A g s).infos n) := by
      intro n
      exact hmj _ _ (forall₂_map_le le (Direction.get_joins dir g n) _ _
        (fun a _ => hascend a))
    have hT : ∀ n, le (transOf dir A g s.infos n)
        (transOf dir A g (stepSolve dir A g s).infos n) := by
      intro n
      exact hmt _ _ _ (hJ n)
    intro n
    rw [step_view dir A g s i rest hwl n]
    by_cases hn : n = i
    · rw [if_pos hn, hn]
      exact hT i
    · rw [if_neg hn]
      exact htle _ _ _ (hI n) (hT n)

theorem wlInNodes_step {I F N : Type} [DecidableEq I] [DecidableEq F]
    (dir : Direction) (A : Analyzer F N) (g : Graph I N)
    (hnodes : ∀ a ∈ g.nodes, ∀ b ∈ Direction.get_nexts dir g a, b ∈ g.nodes)
    (s : SolveState I F) (h : WlInNodes g s) :
    WlInNodes g (stepSolve dir A g s) := by
  cases hwl : s.worklist with
  | nil => rw [stepSolve_nil dir A g s hwl]; exact h
  | cons i rest =>
    intro j hj
    rw [step_worklist dir A g s i rest hwl] at hj
    have hrest : ∀ a ∈ rest, a ∈ g.nodes := fun a ha =>
      h a (by rw [hwl]; exact List.mem_cons_of_mem _ ha)
    by_cases hc : viewOf dir A s.infos i = transOf dir A g s.infos i
    · rw [if_pos hc] at hj
      exact hrest j hj
    · rw [if_neg hc] at hj
      rcases mem_enqueueAll_inv _ _ _ hj with h1 | h1
      · exact hrest j h1
      · exact hnodes i (h i (by rw [hwl]; exact List.mem_cons_self _ _)) j h1

theorem solve_term_aux {I F N : Type} [DecidableEq I] [DecidableEq F]
    (dir : Direction) (A : Analyzer F N) (g : Graph I N)
    (le : F → F → Prop)
    (hrefl : ∀ x, le x x)
    (htle : ∀ x y z, le x y → le y z → le x z)
    (hmt : ∀ nd f₁ f₂, le f₁ f₂ → le (A.trans nd f₁) (A.trans nd f₂))
    (hmj : ∀ l₁ l₂, List.Forall₂ le l₁ l₂ → le (A.join l₁) (A.join l₂))
    (hasc : WellFounded (fun a b : F => le b a ∧ b ≠ a))
    (hnodes : ∀ a ∈ g.nodes, ∀ b ∈ Direction.get_nexts dir g a, b ∈ g.nodes) :
    ∀ v : I → F, ∀ s : SolveState I F,
      MonoInv dir A g le s → WlInNodes g s →
      (∀ n, viewOf dir A s.infos n = v n) →
      ∃ m, (runSolve dir A g m s).worklist = [] := by
  refine fun v => (relVec_wf le hasc g.nodes).induction
    (C := fun v => ∀ s : SolveState I F,
      MonoInv dir A g le s → WlInNodes g s →
      (∀ n, viewOf dir A s.infos n = v n) →
      ∃ m, (runSolve dir A g m s).worklist = []) v ?_
  intro v ihv
  suffices h : ∀ k : Nat, ∀ s : SolveState I F, s.worklist.length = k →
      MonoInv dir A g le s → WlInNodes g s →
      (∀ n, viewOf dir A s.infos n = v n) →
      ∃ m, (runSolve dir A g m s).worklist = [] by
    intro s h1 h2 h3
    exact h s.worklist.length s rfl h1 h2 h3
  intro k
  induction k using Nat.strong_induction_on with
  | _ k ihk =>
    intro s hlen hmono hwln hview
    cases hwl : s.worklist with
    | nil => exact ⟨0, hwl⟩
    | cons i rest =>
      have hmono' : MonoInv dir A g le (stepSolve dir A g s) :=
        monoInv_step dir A g le hrefl htle hmt hmj s hmono
      have hwln' : WlInNodes g (stepSolve dir A g s) :=
        wlInNodes_step dir A g hnodes s hwln
      by_cases hc : viewOf dir A s.infos i = transOf dir A g s.infos i
      · -- the transferred value did not change: the worklist shrinks
        have hview' : ∀ n, viewOf dir A (stepSolve dir A g s).infos n = v n := by
          intro n
          rw [step_view dir A g s i rest hwl n]
          by_cases hn : n = i
          · rw [if_pos hn, ← hc, hn]
            exact hview i
          · rw [if_neg hn]
            exact hview n
        have hlen' : (stepSolve dir A g s).worklist.length = rest.length := by
          rw [step_worklist dir A g s i rest hwl, if_pos hc]
        have hlt : rest.length < k := by
          rw [← hlen, hwl]
          exact Nat.lt_succ_self _
        obtain ⟨m, hm⟩ := ihk rest.length hlt (stepSolve dir A g s) hlen'
          hmono' hwln' hview'
        exact ⟨m + 1, by rw [runSolve_succ]; exact hm⟩
      · -- the transferred value strictly ascended at i
        have hrel : RelVec g.nodes le
            (fun n => viewOf dir A (stepSolve dir A g s).infos n) v := by
          refine ⟨i, ?_, ⟨?_, ?_⟩, ?_⟩
          · exact hwln i (by rw [hwl]; exact List.mem_cons_self _ _)
          · show le (v i) (viewOf dir A (stepSolve dir A g s).infos i)
            rw [step_view dir A g s i rest hwl i, if_pos rfl, ← hview i]
            exact hmono i
          · show v i ≠ viewOf dir A (stepSolve dir A g s).infos i
            rw [step_view dir A g s i rest hwl i, if_pos rfl, ← hview i]
            exact hc
          · intro j hj
            show viewOf dir A (stepSolve dir A g s).infos j = v j
            rw [step_view dir A g s i rest hwl j, if_neg hj]
            exact hview j
        obtain ⟨m, hm⟩ := ihv _ hrel (stepSolve dir A g s) hmono' hwln'
          (fun n => rfl)
        exact ⟨m + 1, by rw [runSolve_succ]; exact hm⟩

theorem get_join_fact_mk {F : Type} (dir : Direction) (x : F) :
    Direction.get_join_fact dir (⟨x, x⟩ : NodeInfo F) = x := by
  cases dir <;> rfl

theorem view_init_eq_top {I F N : Type} [DecidableEq I] (dir : Direction)
    (A : Analyzer F N) (g : Graph I N) (top : F)
    (hinit : A.init_fact = ⟨top, top⟩)
    (hfirst : Direction.get_join_fact dir A.first_fact = top) (n : I) :
    viewOf dir A (initState dir A g).infos n = top := by
  unfold viewOf lookupD initState lookupInfo
  by_cases h : Direction.get_first dir g = n
  · simp only [if_pos h]
    exact hfirst
  · simp only [if_neg h]
    rw [hinit]
    exact get_join_fact_mk dir top

/-! ### Claim theorems -/

/-- Claim C1: over a well-formed graph (mutually consistent predecessor
and successor lists), whenever the solve loop has run to an empty
worklist, every node that was visited satisfies the direction's local
fixpoint equation: the join-fact side of its info equals the transfer,
at that node, of the join of the join-fact sides of the infos of its
join sources — one more iteration would change no value. -/
theorem claim_C1_fixpoint_at_return {I F N : Type} [DecidableEq I]
    [DecidableEq F] (dir : Direction) (A : Analyzer F N) (g : Graph I N)
    (hsym : WellLinked g) (fuel : Nat)
    (hterm : (solveRun dir A g fuel).worklist = []) :
    ∀ n ∈ (solveRun dir A g fuel).visited,
      Direction.get_join_fact dir
          (lookupD (solveRun dir A g fuel).infos n A.init_fact) =
        A.trans (g.get n)
          (A.join ((Direction.get_joins dir g n).map
            (fun m => Direction.get_join_fact dir
              (lookupD (solveRun dir A g fuel).infos m A.init_fact)))) := by
  unfold solveRun at hterm ⊢
  intro n hn
  have hfix := fixInv_run dir A g hsym fuel (initState dir A g)
    (fixInv_init dir A g) n hn
    (by rw [hterm]; exact List.not_mem_nil n)
  rw [hfix, get_join_fact_assign]
  rfl

/-- Witness for claim C1 at a concrete input: the one-node graph with
the forward analyzer `exForward1`, solved with fuel 1. -/
theorem claim_C1_witness :
    Direction.get_join_fact .forward
        (lookupD (solveRun .forward exForward1 exGraph1 1).infos 1
          exForward1.init_fact) =
      exForward1.trans (exGraph1.get 1)
        (exForward1.join ((Direction.get_joins .forward exGraph1 1).map
          (fun m => Direction.get_join_fact .forward
            (lookupD (solveRun .forward exForward1 exGraph1 1).infos m
              exForward1.init_fact)))) :=
  claim_C1_fixpoint_at_return .forward exForward1 exGraph1
    (fun a b => by simp [exGraph1]) 1 (by decide) 1 (by decide)

/-- Claim C2 counterexample: a forward analyzer with entry fact 1 (top
is 0) over the one-node graph.  The solve loop terminates after one
iteration and the entry node's `before` side — the pinned side — is 0,
not the supplied entry fact 1: the seed fact was overwritten. -/
theorem claim_C2_counterexample :
    (solveRun .forward exForward1 exGraph1 1).worklist = [] ∧
      (lookupD (solveRun .forward exForward1 exGraph1 1).infos 1
        exForward1.init_fact).before ≠ 1 := by
  decide

/-- Claim C2 (amended): the pinned side of the seed node holds the
construction-supplied seed fact only in the initial info table; the
seed is dequeued like any other node and `assign` overwrites its whole
info, so at return (over a well-formed graph) the seed's info equals
the assign of its recomputed joined and transferred values — in
particular its pinned side equals the join of its join sources' facts
(top via join [] when it has none), not the seed fact. -/
theorem claim_C2_seed_overwritten {I F N : Type} [DecidableEq I]
    [DecidableEq F] (dir : Direction) (A : Analyzer F N) (g : Graph I N)
    (hsym : WellLinked g) (fuel : Nat)
    (hterm : (solveRun dir A g fuel).worklist = []) :
    lookupInfo (initState dir A g).infos (Direction.get_first dir g) =
        some A.first_fact ∧
      lookupD (solveRun dir A g fuel).infos (Direction.get_first dir g)
          A.init_fact =
        Direction.assign dir
          (joinedOf dir A g (solveRun dir A g fuel).infos
            (Direction.get_first dir g))
          (transOf dir A g (solveRun dir A g fuel).infos
            (Direction.get_first dir g)) := by
  constructor
  · simp [initState, lookupInfo]
  · have hv := first_visited_of_terminated dir A g fuel hterm
    unfold solveRun at hterm hv ⊢
    exact fixInv_run dir A g hsym fuel (initState dir A g)
      (fixInv_init dir A g) (Direction.get_first dir g) hv
      (by rw [hterm]; exact List.not_mem_nil _)

/-- Witness for the amended claim C2 at a concrete input. -/
theorem claim_C2_witness :
    lookupInfo (initState .forward exForward1 exGraph1).infos
        (Direction.get_first .forward exGraph1) = some exForward1.first_fact ∧
      lookupD (solveRun .forward exForward1 exGraph1 1).infos
          (Direction.get_first .forward exGraph1) exForward1.init_fact =
        Direction.assign .forward
          (joinedOf .forward exForward1 exGraph1
            (solveRun .forward exForward1 exGraph1 1).infos
            (Direction.get_first .forward exGraph1))
          (transOf .forward exForward1 exGraph1
            (solveRun .forward exForward1 exGraph1 1).infos
            (Direction.get_first .forward exGraph1)) :=
  claim_C2_seed_overwritten .forward exForward1 exGraph1
    (fun a b => by simp [exGraph1]) 1 (by decide)

/-- Claim C3 counterexample: in `exGraph2` node 2 is a predecessor of
the entry node 1 but unreachable from it.  The forward solve terminates
with node 2 never enqueued, yet node 2 is a key of the returned map —
`solve_joins` inserted its default info while reading it. -/
theorem claim_C3_counterexample :
    (solveRun .forward exForward1 exGraph2 1).worklist = [] ∧
      2 ∉ (solveRun .forward exForward1 exGraph2 1).enqueued ∧
      2 ∈ infoKeys (solveRun .forward exForward1 exGraph2 1).infos := by
  decide

/-- Claim C3 (amended): a node id that is never enqueued AND is never a
join source of a dequeued node is absent from the returned map.  (Ids
that are join sources of processed nodes get a default entry via
`or_insert` even when never enqueued.) -/
theorem claim_C3_unreachable_absent {I F N : Type} [DecidableEq I]
    [DecidableEq F] (dir : Direction) (A : Analyzer F N) (g : Graph I N)
    (fuel : Nat) (j : I)
    (hj1 : j ∉ (solveRun dir A g fuel).enqueued)
    (hj2 : ∀ v ∈ (solveRun dir A g fuel).visited,
      j ∉ Direction.get_joins dir g v) :
    j ∉ infoKeys (solveRun dir A g fuel).infos := by
  intro hmem
  unfold solveRun at hj1 hj2 hmem
  rcases keysCovered_run dir A g fuel (initState dir A g)
    (wlEnqueued_init dir A g) (keysCovered_init dir A g) j hmem with
    h | ⟨v, hv, hjv⟩
  · exact hj1 h
  · exact hj2 v hv hjv

/-- Witness for the amended claim C3 at a concrete input: id 5 is never
enqueued and is nobody's join source, and is indeed absent. -/
theorem claim_C3_witness :
    5 ∉ infoKeys (solveRun .forward exForward1 exGraph1 1).infos :=
  claim_C3_unreachable_absent .forward exForward1 exGraph1 1 5
    (by decide) (by decide)

/-- Claim C10: every id appearing among the join sources of some
dequeued node is present in the returned map, and when such an id was
itself never dequeued its entry is exactly the default info
(before = top, after = top). -/
theorem claim_C10_join_sources_present {I F N : Type} [DecidableEq I]
    [DecidableEq F] (dir : Direction) (A : Analyzer F N) (g : Graph I N)
    (top : F) (hinit : A.init_fact = ⟨top, top⟩) (fuel : Nat)
    (hterm : (solveRun dir A g fuel).worklist = []) :
    ∀ v ∈ (solveRun dir A g fuel).visited,
      ∀ m ∈ Direction.get_joins dir g v,
        (lookupInfo (solveRun dir A g fuel).infos m).isSome ∧
          (m ∉ (solveRun dir A g fuel).visited →
            lookupInfo (solveRun dir A g fuel).infos m =
              some ⟨top, top⟩) := by
  intro v hv m hm
  have hfirst := first_visited_of_terminated dir A g fuel hterm
  unfold solveRun at hv hfirst ⊢
  have hpres := joinsPresent_run dir A g fuel (initState dir A g)
    (joinsPresent_init dir A g) v hv m hm
  refine ⟨hpres, ?_⟩
  intro hmv
  have hmf : m ≠ Direction.get_first dir g := fun he => hmv (he ▸ hfirst)
  cases hs : lookupInfo
      (runSolve dir A g fuel (initState dir A g)).infos m with
  | none => rw [hs] at hpres; simp at hpres
  | some w =>
    have hw := unvisitedDefault_run dir A g (Direction.get_first dir g)
      fuel (initState dir A g) (unvisitedDefault_init dir A g) m hmv hmf w hs
    rw [hw, hinit]

/-- Witness for claim C10 at a concrete input: in `exGraph2` node 2 is
a join source of the visited entry node 1, is never dequeued, and its
entry is the default (0, 0). -/
theorem claim_C10_witness :
    (lookupInfo (solveRun .forward exForward1 exGraph2 1).infos 2).isSome ∧
      (2 ∉ (solveRun .forward exForward1 exGraph2 1).visited →
        lookupInfo (solveRun .forward exForward1 exGraph2 1).infos 2 =
          some ⟨0, 0⟩) :=
  claim_C10_join_sources_present .forward exForward1 exGraph2 0 rfl 1
    (by decide) 1 (by decide) 2 (by decide)

/-- Claim C7: at every point during solve the worklist holds no node id
twice — ids are enqueued only when absent from the queue (checked by a
scan) and the queue starts as the singleton seed. -/
theorem claim_C7_worklist_nodup {I F N : Type} [DecidableEq I]
    [DecidableEq F] (dir : Direction) (A : Analyzer F N) (g : Graph I N)
    (fuel : Nat) : (solveRun dir A g fuel).worklist.Nodup := by
  unfold solveRun
  exact nodup_run dir A g fuel (initState dir A g) (by simp [initState])

/-- Claim C5: solve is deterministic.  Two invocations on equal inputs
— extensionally equal analyzer configurations (same first and default
facts, pointwise-equal pure transfer and join) and extensionally equal
graphs — produce equal solver states at every fuel, and in particular
equal output maps. -/
theorem claim_C5_deterministic {I F N : Type} [DecidableEq I]
    [DecidableEq F] (dir : Direction) (A₁ A₂ : Analyzer F N)
    (g₁ g₂ : Graph I N)
    (hff : A₁.first_fact = A₂.first_fact)
    (hinit : A₁.init_fact = A₂.init_fact)
    (htrans : ∀ nd f, A₁.trans nd f = A₂.trans nd f)
    (hjoin : ∀ l, A₁.join l = A₂.join l)
    (hget : ∀ i, g₁.get i = g₂.get i)
    (hentry : g₁.get_entry = g₂.get_entry)
    (hexit : g₁.get_exit = g₂.get_exit)
    (hpreds : ∀ i, g₁.get_preds i = g₂.get_preds i)
    (hsuccs : ∀ i, g₁.get_succs i = g₂.get_succs i)
    (fuel : Nat) :
    solveRun dir A₁ g₁ fuel = solveRun dir A₂ g₂ fuel := by
  unfold solveRun
  have hfirst : Direction.get_first dir g₁ = Direction.get_first dir g₂ := by
    cases dir with
    | forward => exact hentry
    | backward => exact hexit
  have hinitstate : initState dir A₁ g₁ = initState dir A₂ g₂ := by
    unfold initState
    rw [hfirst, hff]
  rw [hinitstate]
  exact runSolve_congr dir A₁ A₂ g₁ g₂ hinit htrans hjoin hget hpreds
    hsuccs fuel _

/-- Witness for claim C5 at a concrete input (two syntactically
distinct but extensionally equal copies of the same configuration). -/
theorem claim_C5_witness :
    solveRun .forward exForward1 exGraph1 2 =
      solveRun .forward
        ⟨⟨1, 0⟩, ⟨0, 0⟩, fun _ f => f, fun l => l.foldr (· + ·) 0⟩
        ⟨fun _ => (), 1, 1, fun _ => [], fun _ => [], [1]⟩ 2 :=
  claim_C5_deterministic .forward exForward1
    ⟨⟨1, 0⟩, ⟨0, 0⟩, fun _ f => f, fun l => l.foldr (· + ·) 0⟩
    exGraph1 ⟨fun _ => (), 1, 1, fun _ => [], fun _ => [], [1]⟩
    rfl rfl (fun _ _ => rfl) (fun _ => rfl) (fun _ => rfl) rfl rfl
    (fun _ => rfl) (fun _ => rfl) 2

/-- Claim C8: direction duality.  Running a backward analysis built by
`new_backward top t j` on the reversed graph equals, at every fuel, the
forward analysis built by `new_forward top t j` on the original graph
with the `before` and `after` sides of every node's info swapped. -/
theorem claim_C8_duality {I F N : Type} [DecidableEq I] [DecidableEq F]
    (top : F) (t : N → F → F) (j : List F → F) (g : Graph I N)
    (fuel : Nat) :
    solveRun .backward (Analyzer.new_backward top t j) (Graph.reverse g)
        fuel =
      (solveRun .forward (Analyzer.new_forward top t j) g fuel).swapSides := by
  exact runSolve_swap (Analyzer.new_forward top t j) g fuel
    (initState .forward (Analyzer.new_forward top t j) g)

/-- Claim C9: the returned map of a forward solve is independent of the
fact supplied through `with_entry_fact`, and the returned map of a
backward solve is independent of the fact supplied through
`with_exit_fact`: the seed node is always dequeued first and `assign`
overwrites its pinned side before any join reads it (joins read only
the join-fact side, which the seed fact never occupies). -/
theorem claim_C9_seed_fact_irrelevant {I F N : Type} [DecidableEq I]
    [DecidableEq F] (top : F) (t : N → F → F) (j : List F → F)
    (e₁ e₂ : F) (g : Graph I N) (fuel : Nat) :
    (((solveRun .forward ((Analyzer.new_forward top t j).with_entry_fact e₁)
        g fuel).worklist = []) →
      (solveRun .forward ((Analyzer.new_forward top t j).with_entry_fact e₁)
          g fuel).infos =
        (solveRun .forward ((Analyzer.new_forward top t j).with_entry_fact e₂)
          g fuel).infos) ∧
    (((solveRun .backward ((Analyzer.new_backward top t j).with_exit_fact e₁)
        g fuel).worklist = []) →
      (solveRun .backward ((Analyzer.new_backward top t j).with_exit_fact e₁)
          g fuel).infos =
        (solveRun .backward ((Analyzer.new_backward top t j).with_exit_fact e₂)
          g fuel).infos) := by
  constructor
  · intro hterm
    cases fuel with
    | zero => exact absurd hterm (by simp [solveRun, runSolve, initState])
    | succ n =>
      rw [runSolve_seed_congr .forward
        ((Analyzer.new_forward top t j).with_entry_fact e₁)
        ((Analyzer.new_forward top t j).with_entry_fact e₂) g
        rfl rfl rfl rfl (n + 1) (Nat.succ_le_succ (Nat.zero_le n))]
  · intro hterm
    cases fuel with
    | zero => exact absurd hterm (by simp [solveRun, runSolve, initState])
    | succ n =>
      rw [runSolve_seed_congr .backward
        ((Analyzer.new_backward top t j).with_exit_fact e₁)
        ((Analyzer.new_backward top t j).with_exit_fact e₂) g
        rfl rfl rfl rfl (n + 1) (Nat.succ_le_succ (Nat.zero_le n))]

/-- Witness for claim C9 at a concrete input: entry facts 1 and 2 yield
the same returned map on the one-node graph. -/
theorem claim_C9_witness :
    (solveRun .forward exForward1 exGraph1 1).infos =
      (solveRun .forward exForward2 exGraph1 1).infos :=
  (claim_C9_seed_fact_irrelevant 0 (fun _ f => f) sumJoin 1 2
    exGraph1 1).1 (by decide)

/-- Claim C6 counterexample: the single-node forward analysis with seed
fact S = 1, identity transfer and `sumJoin` (with `sumJoin [] = 0` the
top fact) terminates after one iteration with `after = 0 = top`, not
`after = S` as the claim predicts. -/
theorem claim_C6_counterexample :
    (solveRun .forward exForward1 exGraph1 1).worklist = [] ∧
      (lookupD (solveRun .forward exForward1 exGraph1 1).infos 1
        exForward1.init_fact).after ≠ 1 := by
  decide

/-- Claim C6 (amended): for the one-node graph (entry = exit, no
edges), a forward analysis with any seed fact S, identity transfer and
a join with join [] = top converges in one iteration to
`before = top, after = top` — the transferred value is
`trans(node, join []) = top`, so `after = S` holds only when S = top. -/
theorem claim_C6_single_node {F : Type} [DecidableEq F] (top S : F)
    (join : List F → F) (hj : join [] = top) :
    (solveRun .forward
        ((Analyzer.new_forward top (fun _ f => f) join).with_entry_fact S)
        exGraph1 1).worklist = [] ∧
      lookupD (solveRun .forward
          ((Analyzer.new_forward top (fun _ f => f) join).with_entry_fact S)
          exGraph1 1).infos 1 (⟨top, top⟩ : NodeInfo F) =
        ⟨top, top⟩ := by
  constructor
  · simp [solveRun, runSolve, stepSolve, initState, joinReads, orInsert,
      lookupInfo, lookupD, Direction.get_joins, Direction.get_first,
      Direction.get_join_fact, Analyzer.new_forward,
      Analyzer.with_entry_fact, exGraph1, hj]
  · simp [solveRun, runSolve, stepSolve, initState, joinReads, orInsert,
      lookupInfo, lookupD, setInfo, Direction.get_joins,
      Direction.get_first, Direction.get_join_fact, Direction.assign,
      Analyzer.new_forward, Analyzer.with_entry_fact, exGraph1, hj]

/-- Witness for the amended claim C6 at a concrete input. -/
theorem claim_C6_witness :
    (solveRun .forward
        ((Analyzer.new_forward 0 (fun _ f => f) sumJoin).with_entry_fact 1)
        exGraph1 1).worklist = [] ∧
      lookupD (solveRun .forward
          ((Analyzer.new_forward 0 (fun _ f => f) sumJoin).with_entry_fact 1)
          exGraph1 1).infos 1 (⟨0, 0⟩ : NodeInfo Nat) = ⟨0, 0⟩ :=
  claim_C6_single_node 0 1 sumJoin rfl

/-- Claim C4: termination.  For a finite well-formed graph and a
monotone transfer and join over a preorder whose ascending chains are
finite (with top the least element, the default info (top, top) and the
seed's join-fact side top, as both constructors arrange), the solve
loop empties its worklist after finitely many iterations. -/
theorem claim_C4_terminates {I F N : Type} [DecidableEq I] [DecidableEq F]
    (dir : Direction) (A : Analyzer F N) (g : Graph I N) (top : F)
    (le : F → F → Prop)
    (hrefl : ∀ x, le x x)
    (htle : ∀ x y z, le x y → le y z → le x z)
    (htop : ∀ x, le top x)
    (hinit : A.init_fact = ⟨top, top⟩)
    (hfirst : Direction.get_join_fact dir A.first_fact = top)
    (hmt : ∀ nd f₁ f₂, le f₁ f₂ → le (A.trans nd f₁) (A.trans nd f₂))
    (hmj : ∀ l₁ l₂, List.Forall₂ le l₁ l₂ → le (A.join l₁) (A.join l₂))
    (hasc : WellFounded (fun a b : F => le b a ∧ b ≠ a))
    (hgwf : GraphWF g) :
    ∃ fuel, (solveRun dir A g fuel).worklist = [] := by
  have hnodes : ∀ a ∈ g.nodes, ∀ b ∈ Direction.get_nexts dir g a,
      b ∈ g.nodes := by
    cases dir with
    | forward => exact hgwf.succs_mem
    | backward => exact hgwf.preds_mem
  have hfmem : Direction.get_first dir g ∈ g.nodes := by
    cases dir with
    | forward => exact hgwf.entry_mem
    | backward => exact hgwf.exit_mem
  have hmono : MonoInv dir A g le (initState dir A g) := by
    intro n
    rw [view_init_eq_top dir A g top hinit hfirst n]
    exact htop _
  have hwln : WlInNodes g (initState dir A g) := by
    intro j hj
    have : j = Direction.get_first dir g := by
      simpa [initState] using hj
    rw [this]
    exact hfmem
  exact solve_term_aux dir A g le hrefl htle hmt hmj hasc hnodes
    (fun n => viewOf dir A (initState dir A g).infos n)
    (initState dir A g) hmono hwln (fun n => rfl)

/-- Witness for claim C4 at a concrete input: the one-point fact
lattice over the one-node graph terminates. -/
theorem claim_C4_witness :
    ∃ fuel, (solveRun .forward exTrivAnalyzer exGraph1 fuel).worklist = [] :=
  claim_C4_terminates .forward exTrivAnalyzer exGraph1 0
    (fun _ _ => True) (fun _ => trivial) (fun _ _ _ _ _ => trivial)
    (fun _ => trivial) rfl rfl (fun _ _ _ _ => trivial)
    (fun _ _ _ => trivial)
    ⟨fun a => Acc.intro a (fun y hy => absurd (Subsingleton.elim a y) hy.2)⟩
    ⟨by simp [exGraph1], by simp [exGraph1], by simp [exGraph1],
      by simp [exGraph1]⟩
